import Mathlib

/-!
Shallow embedding of the `dbn-solom` repository (files `src/dsl_vm.py` and
`src/search.py`): a bounded stack-based DSL virtual machine with soft stack
overflow, sentinel propagation and lazy wildcard library growth, together
with the enumerative synthesis search over token programs.

Modelling conventions, chosen to mirror the Python source:

* Python lists used as stacks (`self.stack`, `self.frames`) grow and shrink
  at their right end in the source; here the HEAD of a Lean list is the top
  of the stack, so `list.append(v)` becomes `v :: s` and `list.pop()`
  becomes matching on the head.  The output list keeps source order
  (`self.output.append(v)` is `out ++ [v]`).

* Program tokens are modelled in parsed form (inductive `Instr`), mirroring
  the dispatch of `VM._exec` on the already-split instruction text.  The
  `BadOpcode` branch of `_exec` (unrecognised instruction text) is
  unreachable in this parsed representation and has no constructor.

* Python's seeded PRNG (`random.Random`) is modelled as a pure stream: a
  `RandomSource` maps a seed and a draw position to the next raw natural
  number, and `randint`/`choice` reduce a raw draw into the requested range
  exactly as wide as in the source.  All theorems quantify over the source,
  so nothing proved here depends on the actual Mersenne-Twister stream; a
  `Rng` value is the (seed, position) state of one `random.Random` object.

* The VM run loop and the search loop are modelled with explicit fuel,
  structurally recursive so that concrete runs compute by `decide`.  The
  fuel supplied by `runVM` (`vmFuel`) and by `enumerate_programs`
  (`queueWeight + 1`) strictly dominates the loop variant — every loop
  iteration decreases `vmFuel` (`step_next_spec`) resp. the queue weight
  (`expandNode_weight`) — so the fuelled functions agree with the
  unbounded Python loops (see `runLoopF_congr` and `searchLoopF_congr`).

* `VM._sample_body` consults the process-wide `_GLOBAL_BODY_CACHE`, which
  maps a sampled token tuple to an equal-valued list (memory deduplication
  only; the returned value is always equal to the freshly sampled body), so
  the cache is dropped from this value-level model.

* Python's `IndexError` (reachable in `_exec` only through an
  argument-reference token with index `k < -len(inputs)`) is not a
  `VMError` and would propagate out of `VM.run` uncaught; it is modelled as
  the error kind `VMErr.indexError` with `isVMError = false`.  No token of
  the `PRIMITIVES` vocabulary (argument indices 0 and 1 only) can raise it,
  so the search helper `run_vm`, which in the source catches exactly
  `VMError`, never observes it on any program the search constructs.
-/

namespace DbnSolom

/-- STACK_CAP from dsl_vm.py: data-stack depth cap. -/
def STACK_CAP : Nat := 6

/-- CALL_CAP from dsl_vm.py: call-stack depth cap. -/
def CALL_CAP : Nat := 6

/-- BODY_MAX_TOKENS from dsl_vm.py: maximal sampled wildcard body length. -/
def BODY_MAX_TOKENS : Nat := 12

/-- MAX_ARGS from dsl_vm.py: number of exposed argument-reference tokens. -/
def MAX_ARGS : Nat := 2

/-- A stack value: a concrete integer or the sentinel `"T"` (SENTINEL in
dsl_vm.py), which marks soft overflow / unknown values. -/
inductive StackVal where
  | intV (n : Int)
  | sent
deriving DecidableEq

/-- One token of the DSL, in parsed form: the opcode plus its operand, as
dispatched by `VM._exec` after `instr.split()`. -/
inductive Instr where
  | push (n : Int)
  | dup
  | add
  | sub
  | mul
  | print
  | call (f : String)
  | arg (k : Int)
  | select
  | eq
deriving DecidableEq, Inhabited

/-- A program is an ordered token sequence. -/
abbrev Program := List Instr

/-- The failure kinds of a VM run.  The first three are `VMError` values
raised by dsl_vm.py; `indexError` models Python's built-in `IndexError`
(raised by `self.inputs[idx]` for a negative index below `-len(inputs)`),
which is NOT a `VMError` and is never caught by the search. -/
inductive VMErr where
  | stepLimit
  | underflow
  | callDepth
  | indexError
deriving DecidableEq

/-- Whether an error kind is a `VMError` in the source's taxonomy (the only
exception type `run_vm` in search.py catches). -/
def VMErr.isVMError : VMErr → Bool
  | .indexError => false
  | _ => true

/-- Abstract model of the PRNG algorithm behind `random.Random`: `gen s i`
is the i-th raw draw of a generator seeded with `s`. -/
structure RandomSource where
  gen : Nat → Nat → Nat

/-- The state of one `random.Random` object: its seed and how many raw
draws have been consumed. -/
structure Rng where
  seed : Nat
  pos : Nat
deriving DecidableEq

/-- Draw the next raw value and advance the generator. -/
def rngNext (S : RandomSource) (r : Rng) : Nat × Rng :=
  (S.gen r.seed r.pos, ⟨r.seed, r.pos + 1⟩)

/-- Model of `rng.randint(a, b)`: a uniform draw from the inclusive range `[a, b]`,
modelled by reducing the raw draw modulo the range width. -/
def randint (S : RandomSource) (r : Rng) (a b : Nat) : Nat × Rng :=
  let x := rngNext S r
  (a + x.1 % (b - a + 1), x.2)

/-- Model of `rng.choice(l)`: a uniform element of `l`, modelled by indexing with
the raw draw modulo `l.length` (the default is unreachable for the
nonempty lists the source uses). -/
def choice (S : RandomSource) (r : Rng) (l : List Instr) : Instr × Rng :=
  let x := rngNext S r
  (l.getD (x.1 % l.length) .dup, x.2)

/-- Model of `random.Random(s)`: a fresh generator seeded with `s`. -/
def mkRng (s : Nat) : Rng := ⟨s, 0⟩

/-- PRIMITIVES from dsl_vm.py: the fixed token vocabulary, in source
order — `["DUP","ADD","SUB","MUL","PRINT","SELECT","EQ"]`, then
`PUSH n` for `n` in `range(-2, 6)`, then `ARGi` for `i` in
`range(MAX_ARGS)`. -/
def PRIMITIVES : List Instr :=
  [.dup, .add, .sub, .mul, .print, .select, .eq] ++
    ((List.range 8).map fun n => .push ((n : Int) - 2)) ++
    ((List.range MAX_ARGS).map fun i => .arg (i : Int))

/-- The full mutable state of one `VM` instance mid-run: the call frames
(head = `frames[-1]`, each a program with its cursor), the data stack
(head = top), the output sequence (source order), the current inputs, the
name→body library, the instance PRNG state, and the executed-instruction
count of `VM.run`'s loop. -/
structure Config where
  frames : List (Program × Nat)
  stack : List StackVal
  output : List StackVal
  inputs : List Int
  library : List (String × Program)
  rng : Rng
  steps : Nat
deriving DecidableEq

/-- Model of `VM._push`: soft-overflow push — on a stack at (or beyond) capacity the
top element is overwritten with the sentinel (`self.stack[-1] = SENTINEL`);
otherwise the value is appended. -/
def pushStack (v : StackVal) (s : List StackVal) : List StackVal :=
  if STACK_CAP ≤ s.length then s.modifyHead fun _ => .sent
  else v :: s

/-- Push onto a configuration's data stack. -/
def pushCfg (c : Config) (v : StackVal) : Config :=
  {c with stack := pushStack v c.stack}

/-- The value computed by `VM._binary`: `func(a, b)` when both operands are
concrete integers, otherwise the sentinel. -/
def binArith (f : Int → Int → Int) : StackVal → StackVal → StackVal
  | .intV a, .intV b => .intV (f a b)
  | _, _ => .sent

/-- Model of `VM._binary(func)`: require two stack items, pop `b` then `a`, push
`func(a, b)` under sentinel propagation. -/
def execBinary (f : Int → Int → Int) (c : Config) : Except VMErr Config :=
  match c.stack with
  | b :: a :: rest => .ok {c with stack := pushStack (binArith f a b) rest}
  | _ => .error .underflow

/-- Python dict lookup on the insertion-ordered library association list. -/
def libLookup (f : String) : List (String × Program) → Option Program
  | [] => none
  | (g, b) :: t => if f = g then some b else libLookup f t

/-- Python list indexing `l[k]` for an `Int` index: nonnegative indices
read from the front, negative indices read from `len + k`, and anything
out of range is an `IndexError` (`none`). -/
def pyGet (l : List Int) (k : Int) : Option Int :=
  if 0 ≤ k then l.get? k.toNat
  else if 0 ≤ (l.length : Int) + k then l.get? ((l.length : Int) + k).toNat
  else none

/-- The token-drawing loop of `VM._sample_body`: `n` uniform choices from
`PRIMITIVES`, in sampling order. -/
def sample_tokens (S : RandomSource) : Nat → Rng → List Instr × Rng
  | 0, r => ([], r)
  | n + 1, r =>
    let t := choice S r PRIMITIVES
    let ts := sample_tokens S n t.2
    (t.1 :: ts.1, ts.2)

/-- Model of `VM._sample_body`: draw a body length uniformly from
`[1, BODY_MAX_TOKENS]`, then that many tokens uniformly from `PRIMITIVES`.
The `_GLOBAL_BODY_CACHE` step of the source deduplicates memory only and
always returns a list equal to the sampled body, so it is dropped here. -/
def sample_body (S : RandomSource) (r : Rng) : List Instr × Rng :=
  let n := randint S r 1 BODY_MAX_TOKENS
  sample_tokens S n.1 n.2

/-- Model of `VM._exec`: dispatch one instruction against the machine state.  The
configuration passed in already has the current frame's cursor advanced,
exactly as in `VM.run` (`self.frames[-1] = (prog, ip + 1)` precedes
`self._exec(instr)`). -/
def execInstr (S : RandomSource) (i : Instr) (c : Config) : Except VMErr Config :=
  match i with
  | .push n => .ok (pushCfg c (.intV n))
  | .dup =>
    match c.stack with
    | [] => .error .underflow
    | v :: _ => .ok (pushCfg c v)
  | .add => execBinary (fun a b => a + b) c
  | .sub => execBinary (fun a b => a - b) c
  | .mul => execBinary (fun a b => a * b) c
  | .print =>
    match c.stack with
    | [] => .error .underflow
    | v :: _ => .ok {c with output := c.output ++ [v]}
  | .call f =>
    if CALL_CAP ≤ c.frames.length then .error .callDepth
    else
      match libLookup f c.library with
      | some body => .ok {c with frames := (body, 0) :: c.frames}
      | none =>
        let bd := sample_body S c.rng
        .ok {c with library := c.library ++ [(f, bd.1)], rng := bd.2,
                    frames := (bd.1, 0) :: c.frames}
  | .arg k =>
    if k < (c.inputs.length : Int) then
      match pyGet c.inputs k with
      | some v => .ok (pushCfg c (.intV v))
      | none => .error .indexError
    else .ok (pushCfg c (.intV 0))
  | .select =>
    match c.stack with
    | b :: a :: cond :: rest =>
      let chosen : StackVal :=
        match cond with
        | .intV n => if n ≠ 0 then a else b
        | .sent => b
      .ok {c with stack := pushStack chosen rest}
    | _ => .error .underflow
  | .eq =>
    match c.stack with
    | b :: a :: rest =>
      let cmp : Int :=
        match a, b with
        | .intV x, .intV y => if x = y then 1 else 0
        | _, _ => 0
      .ok {c with stack := pushStack (.intV cmp) rest}
    | _ => .error .underflow

/-- Outcome of one iteration of `VM.run`'s while-loop. -/
inductive StepRes where
  | halt (c : Config)
  | err (e : VMErr)
  | next (c : Config)

/-- One iteration of `VM.run`'s loop, in source order: stop when the call
stack is empty; fail if the executed-instruction count has reached the
step budget; pop an exhausted frame; otherwise fetch, advance the cursor,
execute, and count the instruction. -/
def step (S : RandomSource) (M : Nat) (c : Config) : StepRes :=
  match c.frames with
  | [] => .halt c
  | (prog, ip) :: rest =>
    if M ≤ c.steps then .err .stepLimit
    else if h : prog.length ≤ ip then .next {c with frames := rest}
    else
      match execInstr S (prog.get ⟨ip, by omega⟩) {c with frames := (prog, ip + 1) :: rest} with
      | .error e => .err e
      | .ok c2 => .next {c2 with steps := c2.steps + 1}

/-- An upper bound (plus one) on the remaining loop iterations: each
executed instruction costs 2 and may add one frame, each frame pop costs
1. -/
def vmFuel (M : Nat) (c : Config) : Nat := 2 * (M - c.steps) + c.frames.length + 1

/-- The fuelled while-loop of `VM.run`.  The fuel-exhausted branch is
unreachable for the fuel `runLoop` supplies (`runLoopF_congr`). -/
def runLoopF (S : RandomSource) (M : Nat) : Nat → Config → Except VMErr Config
  | 0, _ => .error .stepLimit
  | fuel + 1, c =>
    match step S M c with
    | .halt d => .ok d
    | .err e => .error e
    | .next c' => runLoopF S M fuel c'

/-- The loop of `VM.run` with sufficient fuel. -/
def runLoop (S : RandomSource) (M : Nat) (c : Config) : Except VMErr Config :=
  runLoopF S M (vmFuel M c) c

/-- The machine state at the top of `VM.run`: stack, output and frames are
reset (`self.stack.clear(); self.output.clear();
self.frames = [(program, 0)]`), the inputs are installed, and the
instance's library and PRNG state are carried over unchanged. -/
def initConfig (lib : List (String × Program)) (r : Rng) (p : Program)
    (ins : List Int) : Config :=
  ⟨[(p, 0)], [], [], ins, lib, r, 0⟩

/-- Model of `VM.run(program, inputs=ins, max_steps=M)` on an instance whose library
is `lib` and whose PRNG state is `r`: returns the full final machine state
on success (its `output` field is the returned output list). -/
def runVM (S : RandomSource) (lib : List (String × Program)) (r : Rng) (p : Program)
    (ins : List Int) (M : Nat) : Except VMErr Config :=
  runLoop S M (initConfig lib r p ins)

/-- Model of `run_vm` from search.py: run a fresh VM (empty library, given PRNG
state) with the default step budget 1000 and return its output list, or
`none` when the run raises.  The source catches exactly `VMError`; the
remaining kind (`indexError`) is unreachable for programs over the search
vocabulary, whose argument indices are 0 and 1 (`runVM_no_indexError`). -/
def run_vm (S : RandomSource) (p : Program) (ins : List Int) (r : Rng) :
    Option (List StackVal) :=
  match runVM S [] r p ins 1000 with
  | .ok c => some c.output
  | .error _ => none

/-- The mismatch test of `prefix_ok` in search.py:
`any(o != e for o, e in zip(out, exp))` — positions are compared only up to
the SHORTER of the two sequences (`zip` truncates), so emitted output
beyond the end of the expected sequence is not inspected. -/
def prefixMismatch (out : List StackVal) (exp : List Int) : Bool :=
  (out.zip exp).any fun oe => decide (oe.1 ≠ StackVal.intV oe.2)

/-- Model of `prefix_ok(program, examples, rng_master)` from search.py: for each
example in order, derive a fresh per-example generator from a 32-bit draw
of the node's generator, run the VM, and reject on a VM error or on any
mismatch within the zipped overlap; the node generator's advanced state is
returned (the source mutates it in place). -/
def prefix_ok (S : RandomSource) (p : Program) :
    List (List Int × List Int) → Rng → Bool × Rng
  | [], r => (true, r)
  | (inp, exp) :: rest, r =>
    let s := randint S r 0 (2 ^ 32 - 1)
    match run_vm S p inp (mkRng s.1) with
    | none => (false, s.2)
    | some out =>
      if prefixMismatch out exp then (false, s.2)
      else prefix_ok S p rest s.2

/-- Model of `candidate_ok(program, examples, rng_master)` from search.py: like
`prefix_ok`, but the run must succeed and its full output must equal the
expected output exactly (`out != exp` rejects, and a `None` from `run_vm`
is never equal to a list). -/
def candidate_ok (S : RandomSource) (p : Program) :
    List (List Int × List Int) → Rng → Bool × Rng
  | [], r => (true, r)
  | (inp, exp) :: rest, r =>
    let s := randint S r 0 (2 ^ 32 - 1)
    match run_vm S p inp (mkRng s.1) with
    | none => (false, s.2)
    | some out =>
      if out = exp.map StackVal.intV then candidate_ok S p rest s.2
      else (false, s.2)

/-- A search node: a candidate program prefix paired with its own
pseudorandom-generator state. -/
structure SNode where
  prog : Program
  rng : Rng
deriving DecidableEq

/-- The token vocabulary the search extends candidates with:
`PRIMITIVES if not allow_wildcards else PRIMITIVES + ["CALL _"]`. -/
def tokenSpace (aw : Bool) : List Instr :=
  if aw then PRIMITIVES ++ [.call ("_")] else PRIMITIVES

/-- One iteration of the expansion for-loop in `enumerate_programs`: test
the one-token-longer candidate with `prefix_ok` (threading the popped
node's generator), and on success cons a new node seeded from a fresh
32-bit draw onto the accumulator — `queue.appendleft` builds the new
front in reverse token order. -/
def expandStep (S : RandomSource) (exs : List (List Int × List Int)) (p : Program)
    (acc : List SNode × Rng) (tok : Instr) : List SNode × Rng :=
  let child := p ++ [tok]
  let pr := prefix_ok S child exs acc.2
  if pr.1 then
    let sd := randint S pr.2 0 (2 ^ 32 - 1)
    (⟨child, mkRng sd.1⟩ :: acc.1, sd.2)
  else (acc.1, pr.2)

/-- The whole expansion for-loop over the token space. -/
def expandNode (S : RandomSource) (exs : List (List Int × List Int)) (p : Program)
    (toks : List Instr) (r : Rng) : List SNode × Rng :=
  toks.foldl (expandStep S exs p) ([], r)

/-- The frontier-bound admission control at the top of each search
iteration: `if beam and len(queue) > beam: queue.pop()` until within
bound — entries are dropped from the BACK of the deque, keeping the first
`beam` entries; a `None` or `0` bound (both falsy in Python) disables
trimming. -/
def trimQueue (beam : Option Nat) (q : List SNode) : List SNode :=
  match beam with
  | none => q
  | some b => if b ≠ 0 ∧ b < q.length then q.take b else q

/-- Weight of one search node for the loop variant: the size of a complete
branching-`B` tree of the remaining depth. -/
def treeW (B : Nat) : Nat → Nat
  | 0 => 1
  | d + 1 => 1 + B * treeW B d

/-- Total weight of a search queue: the loop variant of the search. -/
def queueWeight (B maxT : Nat) (q : List SNode) : Nat :=
  (q.map fun n => treeW B (maxT - n.prog.length)).sum

/-- The fuelled while-loop of `enumerate_programs` from search.py: trim
the queue to the frontier bound, pop the front node, accept it as a
solution if `candidate_ok` holds (without expanding), discard it at the
token-length cutoff, and otherwise push every `prefix_ok`-passing
one-token extension to the front.  The fuel-exhausted branch is
unreachable for the fuel `enumerate_programs` supplies
(`searchLoopF_congr`). -/
def searchLoopF (S : RandomSource) (exs : List (List Int × List Int)) (maxT : Nat)
    (beam : Option Nat) (aw : Bool) : Nat → List SNode → List Program → List Program
  | 0, _, sols => sols
  | fuel + 1, queue, sols =>
    match trimQueue beam queue with
    | [] => sols
    | node :: rest =>
      let res := candidate_ok S node.prog exs node.rng
      if res.1 then searchLoopF S exs maxT beam aw fuel rest (sols ++ [node.prog])
      else if maxT ≤ node.prog.length then searchLoopF S exs maxT beam aw fuel rest sols
      else
        searchLoopF S exs maxT beam aw fuel
          ((expandNode S exs node.prog (tokenSpace aw) res.2).1 ++ rest) sols

/-- Model of `enumerate_programs(examples, max_tokens=maxT, beam=beam,
allow_wildcards=aw, seed=seed)` from search.py: seed the master generator,
start from the single empty-program node with a freshly derived generator,
and run the search loop to exhaustion, returning all accepted solutions in
acceptance order. -/
def enumerate_programs (S : RandomSource) (exs : List (List Int × List Int))
    (maxT : Nat) (beam : Option Nat) (aw : Bool) (seed : Nat) : List Program :=
  let s0 := randint S (mkRng seed) 0 (2 ^ 32 - 1)
  let q0 : List SNode := [⟨[], mkRng s0.1⟩]
  searchLoopF S exs maxT beam aw (queueWeight (tokenSpace aw).length maxT q0 + 1) q0 []

/-- A concrete all-zero random source, used to give the rng-independent
checks of call-free programs a canonical value and to evaluate witnesses. -/
def S0 : RandomSource := ⟨fun _ _ => 0⟩

/-- Whether a token is a library call (the only instruction that consults
the PRNG or the library). -/
def isCall : Instr → Bool
  | .call _ => true
  | _ => false

/-- A program with no call tokens. -/
def progCallFree (p : Program) : Bool := p.all fun i => !isCall i

/-- All frames hold call-free programs. -/
def framesCF (fs : List (Program × Nat)) : Bool := fs.all fun fr => progCallFree fr.1

/-- The value of the `prefix_ok` test on a call-free program, which is
independent of the generator state and of the random source
(`prefix_ok_fst_eq`). -/
def prefixOkPure (p : Program) (exs : List (List Int × List Int)) : Bool :=
  (prefix_ok S0 p exs ⟨0, 0⟩).1

/-- The value of the `candidate_ok` test on a call-free program, which is
independent of the generator state and of the random source
(`candidate_ok_fst_eq`). -/
def candOkPure (p : Program) (exs : List (List Int × List Int)) : Bool :=
  (candidate_ok S0 p exs ⟨0, 0⟩).1

/-- The i-th 32-bit seed drawn from generator state `r` by a sequence of
`randint(0, 2**32 - 1)` calls. -/
def exSeed (S : RandomSource) (r : Rng) (i : Nat) : Nat :=
  S.gen r.seed (r.pos + i) % 2 ^ 32

instance {ε α : Type} [DecidableEq ε] [DecidableEq α] : DecidableEq (Except ε α) := fun a b =>
  match a, b with
  | .error e, .error f => decidable_of_iff (e = f) (by simp)
  | .ok x, .ok y => decidable_of_iff (x = y) (by simp)
  | .error _, .ok _ => isFalse (by simp)
  | .ok _, .error _ => isFalse (by simp)

/-- The witness program of the end-to-end test:
`["ARG0", "DUP", "MUL", "PUSH 1", "ADD", "PRINT"]`, computing x² + 1. -/
def targetProg : Program := [.arg 0, .dup, .mul, .push 1, .add, .print]

/-- The examples of the end-to-end test: `{[2] → [5], [3] → [10]}`. -/
def exsSquare : List (List Int × List Int) := [([2], [5]), ([3], [10])]

/-- A concrete machine state with argument vector `[7]`, used to exhibit
the behaviour of argument-reference tokens with negative indices. -/
def argCfg : Config := ⟨[], [], [], [7], [], ⟨0, 0⟩, 0⟩

/-- A concrete candidate whose output is strictly longer than the expected
output of the example `[] → [0]`: it emits `[0, 0]`. -/
def longOutProg : Program := [.push 0, .print, .print]

/-- A token whose argument-reference index (if any) is nonnegative; every
token of `PRIMITIVES` satisfies this. -/
def instrArgOk : Instr → Bool
  | .arg k => decide (0 ≤ k)
  | _ => true

/-- A program all of whose argument-reference indices are nonnegative. -/
def progArgOk (p : Program) : Bool := p.all instrArgOk

/-- A random source under which the wildcard body sampled at generator
state `(s, 0)` is the single harmless token `PUSH -2` (draw 0 selects body
length 1, draw 1 selects vocabulary index 7). -/
def wildSource : RandomSource := ⟨fun _ n => if n = 1 then 7 else 0⟩

/-- Map a configuration transformation over a loop-iteration outcome. -/
def mapStepRes (g : Config → Config) : StepRes → StepRes
  | .halt c => .halt (g c)
  | .err e => .err e
  | .next c => .next (g c)

/-- One source-level transition of `VM.run`'s loop. -/
def StepNext (S : RandomSource) (M : Nat) (c c' : Config) : Prop :=
  step S M c = .next c'

/-- Reachability inside one `VM.run` loop. -/
def StepsTo (S : RandomSource) (M : Nat) : Config → Config → Prop :=
  Relation.ReflTransGen (StepNext S M)

/-! Basic facts about the single-instruction semantics. -/

theorem pushStack_length (v : StackVal) (s : List StackVal) :
    (pushStack v s).length ≤ s.length + 1 ∧
      (s.length ≤ STACK_CAP → (pushStack v s).length ≤ STACK_CAP) := by
  unfold pushStack
  split
  · simp only [List.length_modifyHead]
    omega
  · simp only [List.length_cons]
    unfold STACK_CAP at *
    omega

theorem libLookup_append_some {l l2 : List (String × Program)} {f : String} {b : Program}
    (h : libLookup f l = some b) : libLookup f (l ++ l2) = some b := by
  induction l with
  | nil => simp [libLookup] at h
  | cons kv t ih =>
    obtain ⟨g, b'⟩ := kv
    simp only [libLookup, List.cons_append] at h ⊢
    split
    · rename_i hfg
      rwa [if_pos hfg] at h
    · rename_i hfg
      rw [if_neg hfg] at h
      exact ih h

theorem libLookup_append_ne {l : List (String × Program)} {f g : String} {b' : Program}
    (h : g ≠ f) : libLookup g (l ++ [(f, b')]) = libLookup g l := by
  induction l with
  | nil => simp [libLookup, h]
  | cons kv t ih =>
    obtain ⟨k, b''⟩ := kv
    simp only [libLookup, List.cons_append]
    split
    · rfl
    · exact ih

theorem execInstr_spec {S : RandomSource} {i : Instr} {c c' : Config}
    (h : execInstr S i c = .ok c') :
    c'.steps = c.steps ∧ c'.inputs = c.inputs ∧
      c'.frames.length ≤ c.frames.length + 1 ∧
      (c.frames ≠ [] → c'.frames ≠ []) ∧
      (c.stack.length ≤ STACK_CAP → c'.stack.length ≤ STACK_CAP) ∧
      (∀ f b, libLookup f c.library = some b → libLookup f c'.library = some b) := by
  cases i with
  | push n =>
    simp only [execInstr, Except.ok.injEq] at h
    subst h
    refine ⟨rfl, rfl, by simp [pushCfg], by simp [pushCfg], ?_, by simp [pushCfg]⟩
    intro hl
    exact (pushStack_length _ _).2 hl
  | dup =>
    simp only [execInstr] at h
    split at h
    · exact absurd h (by simp)
    · simp only [Except.ok.injEq] at h
      subst h
      refine ⟨rfl, rfl, by simp [pushCfg], by simp [pushCfg], ?_, by simp [pushCfg]⟩
      intro hl
      exact (pushStack_length _ _).2 hl
  | add =>
    simp only [execInstr, execBinary] at h
    split at h
    · rename_i b a rest heq
      simp only [Except.ok.injEq] at h
      subst h
      refine ⟨rfl, rfl, by simp, by simp, ?_, by simp⟩
      intro hl
      rw [heq] at hl
      have h1 := (pushStack_length (binArith (fun a b => a + b) a b) rest).1
      simp only [List.length_cons] at hl
      show (pushStack (binArith (fun a b => a + b) a b) rest).length ≤ STACK_CAP
      unfold STACK_CAP at *
      omega
    · exact absurd h (by simp)
  | sub =>
    simp only [execInstr, execBinary] at h
    split at h
    · rename_i b a rest heq
      simp only [Except.ok.injEq] at h
      subst h
      refine ⟨rfl, rfl, by simp, by simp, ?_, by simp⟩
      intro hl
      rw [heq] at hl
      have h1 := (pushStack_length (binArith (fun a b => a - b) a b) rest).1
      simp only [List.length_cons] at hl
      show (pushStack (binArith (fun a b => a - b) a b) rest).length ≤ STACK_CAP
      unfold STACK_CAP at *
      omega
    · exact absurd h (by simp)
  | mul =>
    simp only [execInstr, execBinary] at h
    split at h
    · rename_i b a rest heq
      simp only [Except.ok.injEq] at h
      subst h
      refine ⟨rfl, rfl, by simp, by simp, ?_, by simp⟩
      intro hl
      rw [heq] at hl
      have h1 := (pushStack_length (binArith (fun a b => a * b) a b) rest).1
      simp only [List.length_cons] at hl
      show (pushStack (binArith (fun a b => a * b) a b) rest).length ≤ STACK_CAP
      unfold STACK_CAP at *
      omega
    · exact absurd h (by simp)
  | print =>
    simp only [execInstr] at h
    split at h
    · exact absurd h (by simp)
    · simp only [Except.ok.injEq] at h
      subst h
      exact ⟨rfl, rfl, by simp, by simp, by simp, by simp⟩
  | call f =>
    simp only [execInstr] at h
    split at h
    · exact absurd h (by simp)
    · split at h
      · simp only [Except.ok.injEq] at h
        subst h
        exact ⟨rfl, rfl, by simp, by simp, by simp, by simp⟩
      · simp only [Except.ok.injEq] at h
        subst h
        refine ⟨rfl, rfl, by simp, by simp, by simp, ?_⟩
        intro g b hg
        exact libLookup_append_some hg
  | arg k =>
    simp only [execInstr] at h
    split at h
    · split at h
      · simp only [Except.ok.injEq] at h
        subst h
        refine ⟨rfl, rfl, by simp [pushCfg], by simp [pushCfg], ?_, by simp [pushCfg]⟩
        intro hl
        exact (pushStack_length _ _).2 hl
      · exact absurd h (by simp)
    · simp only [Except.ok.injEq] at h
      subst h
      refine ⟨rfl, rfl, by simp [pushCfg], by simp [pushCfg], ?_, by simp [pushCfg]⟩
      intro hl
      exact (pushStack_length _ _).2 hl
  | select =>
    simp only [execInstr] at h
    split at h
    · rename_i b a cond rest heq
      simp only [Except.ok.injEq] at h
      subst h
      refine ⟨rfl, rfl, by simp, by simp, ?_, by simp⟩
      intro hl
      rw [heq] at hl
      simp only [List.length_cons] at hl
      show (pushStack _ rest).length ≤ STACK_CAP
      refine le_trans (pushStack_length _ rest).1 ?_
      unfold STACK_CAP at *
      omega
    · exact absurd h (by simp)
  | eq =>
    simp only [execInstr] at h
    split at h
    · rename_i b a rest heq
      simp only [Except.ok.injEq] at h
      subst h
      refine ⟨rfl, rfl, by simp, by simp, ?_, by simp⟩
      intro hl
      rw [heq] at hl
      simp only [List.length_cons] at hl
      show (pushStack _ rest).length ≤ STACK_CAP
      refine le_trans (pushStack_length _ rest).1 ?_
      unfold STACK_CAP at *
      omega
    · exact absurd h (by simp)

/-! Facts about one loop iteration of `VM.run` and about the fuelled loop. -/

theorem execInstr_ne_stepLimit {S : RandomSource} {i : Instr} {c : Config} {e : VMErr}
    (h : execInstr S i c = .error e) : e ≠ .stepLimit := by
  cases i <;> simp only [execInstr, execBinary] at h <;>
    (repeat' split at h) <;> simp_all <;> (intro hcon; subst hcon; simp_all)

theorem step_frames_empty {S : RandomSource} {M : Nat} {c : Config} (hf : c.frames = []) :
    step S M c = .halt c := by
  unfold step
  rw [hf]

theorem step_halt_spec {S : RandomSource} {M : Nat} {c d : Config}
    (h : step S M c = .halt d) : d = c ∧ c.frames = [] := by
  unfold step at h
  split at h
  · rename_i heq
    cases h
    exact ⟨rfl, heq⟩
  · split at h
    · cases h
    · split at h
      · cases h
      · split at h <;> cases h

theorem step_err_limit {S : RandomSource} {M : Nat} {c : Config}
    (h : step S M c = .err .stepLimit) : c.frames ≠ [] ∧ M ≤ c.steps := by
  unfold step at h
  split at h
  · cases h
  · rename_i prog ip rest heq
    split at h
    · rename_i hM
      exact ⟨by rw [heq]; simp, hM⟩
    · rename_i hM
      split at h
      · cases h
      · split at h
        · rename_i e hexec
          cases h
          exact absurd rfl (execInstr_ne_stepLimit hexec)
        · cases h

theorem step_next_spec {S : RandomSource} {M : Nat} {c c' : Config}
    (h : step S M c = .next c') :
    c.steps < M ∧ c'.steps ≤ c.steps + 1 ∧ vmFuel M c' < vmFuel M c ∧
      (c'.frames = [] → c'.steps = c.steps) ∧
      (c.stack.length ≤ STACK_CAP → c'.stack.length ≤ STACK_CAP) ∧
      (∀ f b, libLookup f c.library = some b → libLookup f c'.library = some b) ∧
      c'.inputs = c.inputs := by
  unfold step at h
  split at h
  · cases h
  · rename_i prog ip rest heq
    split at h
    · cases h
    · rename_i hM
      split at h
      · rename_i hip
        cases h
        have hflen : c.frames.length = rest.length + 1 := by rw [heq]; simp
        refine ⟨by omega, by simp, ?_, by intro _; rfl, by simp, by simp, rfl⟩
        unfold vmFuel
        simp only [Config.frames] at hflen ⊢
        simp only [hflen]
        omega
      · rename_i hip
        split at h
        · cases h
        · rename_i c2 hexec
          cases h
          obtain ⟨h1, h2, h3, h4, h5, h6⟩ := execInstr_spec hexec
          have e1 : ({c with frames := (prog, ip + 1) :: rest} : Config).steps = c.steps := rfl
          have e2 : ({c with frames := (prog, ip + 1) :: rest} : Config).frames.length
              = rest.length + 1 := by simp
          have e3 : ({c with frames := (prog, ip + 1) :: rest} : Config).stack = c.stack := rfl
          have e4 : ({c with frames := (prog, ip + 1) :: rest} : Config).library = c.library := rfl
          have e5 : ({c with frames := (prog, ip + 1) :: rest} : Config).inputs = c.inputs := rfl
          rw [e1] at h1
          rw [e2] at h3
          rw [e3] at h5
          rw [e4] at h6
          rw [e5] at h2
          have hflen : c.frames.length = rest.length + 1 := by rw [heq]; simp
          refine ⟨by omega, ?_, ?_, ?_, ?_, ?_, ?_⟩
          · show c2.steps + 1 ≤ c.steps + 1
            omega
          · show 2 * (M - (c2.steps + 1)) + c2.frames.length + 1
              < 2 * (M - c.steps) + c.frames.length + 1
            omega
          · intro hempty
            have hne : c2.frames ≠ [] := h4 (by simp)
            exact absurd hempty hne
          · intro hl
            exact h5 hl
          · intro f b hb
            exact h6 f b hb
          · exact h2

theorem stepsTo_spec {S : RandomSource} {M : Nat} {c d : Config} (h : StepsTo S M c d) :
    (c.stack.length ≤ STACK_CAP → d.stack.length ≤ STACK_CAP) ∧
      (∀ f b, libLookup f c.library = some b → libLookup f d.library = some b) ∧
      (c.steps ≤ M → d.steps ≤ M) ∧ d.inputs = c.inputs := by
  induction h with
  | refl => exact ⟨id, fun _ _ => id, id, rfl⟩
  | tail hab hbc ih =>
    obtain ⟨i1, i2, i3, i4⟩ := ih
    obtain ⟨s1, s2, s3, s4, s5, s6, s7⟩ := step_next_spec hbc
    exact ⟨fun hl => s5 (i1 hl), fun f b hb => s6 f b (i2 f b hb),
      fun _ => by omega, by rw [s7, i4]⟩

theorem runLoopF_ok {S : RandomSource} {M : Nat} (fuel : Nat) :
    ∀ {c d : Config}, runLoopF S M fuel c = .ok d → StepsTo S M c d ∧ d.frames = [] := by
  induction fuel with
  | zero => intro c d h; simp [runLoopF] at h
  | succ n ih =>
    intro c d h
    unfold runLoopF at h
    cases hs : step S M c with
    | halt e =>
      rw [hs] at h
      cases h
      obtain ⟨he, hf⟩ := step_halt_spec hs
      subst he
      exact ⟨Relation.ReflTransGen.refl, hf⟩
    | err e => rw [hs] at h; cases h
    | next c2 =>
      rw [hs] at h
      obtain ⟨hsteps, hf⟩ := ih h
      exact ⟨Relation.ReflTransGen.head hs hsteps, hf⟩

theorem runLoopF_ok_steps {S : RandomSource} {M : Nat} (fuel : Nat) :
    ∀ {c d : Config}, c.frames ≠ [] → runLoopF S M fuel c = .ok d → d.steps < M := by
  induction fuel with
  | zero => intro c d _ h; simp [runLoopF] at h
  | succ n ih =>
    intro c d hne h
    unfold runLoopF at h
    cases hs : step S M c with
    | halt e =>
      exact absurd (step_halt_spec hs).2 hne
    | err e => rw [hs] at h; cases h
    | next c2 =>
      rw [hs] at h
      by_cases hf : c2.frames = []
      · have hd : d = c2 := by
          cases n with
          | zero => simp [runLoopF] at h
          | succ m =>
            unfold runLoopF at h
            rw [step_frames_empty hf] at h
            cases h
            rfl
        obtain ⟨s1, s2, s3, s4, s5, s6, s7⟩ := step_next_spec hs
        rw [hd, s4 hf]
        exact s1
      · exact ih hf h

theorem runLoopF_errLimit {S : RandomSource} {M : Nat} (fuel : Nat) :
    ∀ {c : Config}, vmFuel M c ≤ fuel → runLoopF S M fuel c = .error .stepLimit →
      ∃ d, StepsTo S M c d ∧ d.frames ≠ [] ∧ M ≤ d.steps := by
  induction fuel with
  | zero =>
    intro c hfu _
    unfold vmFuel at hfu
    omega
  | succ n ih =>
    intro c hfu h
    unfold runLoopF at h
    cases hs : step S M c with
    | halt e => rw [hs] at h; cases h
    | err e =>
      rw [hs] at h
      cases h
      obtain ⟨h1, h2⟩ := step_err_limit hs
      exact ⟨c, Relation.ReflTransGen.refl, h1, h2⟩
    | next c2 =>
      rw [hs] at h
      have hlt := (step_next_spec hs).2.2.1
      obtain ⟨d, hd1, hd2, hd3⟩ := ih (by omega) h
      exact ⟨d, Relation.ReflTransGen.head hs hd1, hd2, hd3⟩

theorem runLoopF_congr {S : RandomSource} {M : Nat} :
    ∀ (f g : Nat) {c : Config}, vmFuel M c ≤ f → vmFuel M c ≤ g →
      runLoopF S M f c = runLoopF S M g c := by
  intro f
  induction f with
  | zero =>
    intro g c hf _
    unfold vmFuel at hf
    omega
  | succ n ih =>
    intro g c hf hg
    cases g with
    | zero =>
      unfold vmFuel at hg
      omega
    | succ m =>
      unfold runLoopF
      cases hs : step S M c with
      | halt e => rfl
      | err e => rfl
      | next c2 =>
        have hlt := (step_next_spec hs).2.2.1
        exact ih m (by omega) (by omega)

theorem runLoop_unfold {S : RandomSource} {M : Nat} (c : Config) :
    runLoop S M c =
      match step S M c with
      | .halt d => .ok d
      | .err e => .error e
      | .next c' => runLoop S M c' := by
  unfold runLoop
  cases hv : vmFuel M c with
  | zero =>
    unfold vmFuel at hv
    omega
  | succ n =>
    unfold runLoopF
    cases hs : step S M c with
    | halt e => rfl
    | err e => rfl
    | next c2 =>
      have hlt := (step_next_spec hs).2.2.1
      exact runLoopF_congr n (vmFuel M c2) (by omega) (by omega)

theorem stepsTo_runLoop {S : RandomSource} {M : Nat} {c d : Config}
    (h : StepsTo S M c d) : runLoop S M c = runLoop S M d := by
  induction h with
  | refl => rfl
  | tail hab hbc ih =>
    rw [ih, runLoop_unfold]
    rw [show step S M _ = _ from hbc]

/-! Sampling facts for wildcard bodies. -/

theorem choice_mem (S : RandomSource) (r : Rng) {l : List Instr} (hne : l ≠ []) :
    (choice S r l).1 ∈ l := by
  have hpos : 0 < l.length := List.length_pos.mpr hne
  have hlt : (rngNext S r).1 % l.length < l.length := Nat.mod_lt _ hpos
  show l.getD ((rngNext S r).1 % l.length) Instr.dup ∈ l
  rw [List.getD_eq_getElem l _ hlt]
  exact List.getElem_mem hlt

theorem sample_tokens_spec (S : RandomSource) :
    ∀ (n : Nat) (r : Rng), (sample_tokens S n r).1.length = n ∧
      ∀ tok ∈ (sample_tokens S n r).1, tok ∈ PRIMITIVES := by
  intro n
  induction n with
  | zero => intro r; exact ⟨rfl, by simp [sample_tokens]⟩
  | succ m ih =>
    intro r
    obtain ⟨ih1, ih2⟩ := ih (choice S r PRIMITIVES).2
    constructor
    · simp [sample_tokens, ih1]
    · intro tok htok
      simp only [sample_tokens, List.mem_cons] at htok
      rcases htok with h | h
      · rw [h]
        exact choice_mem S r (by decide)
      · exact ih2 tok h

theorem sample_body_spec (S : RandomSource) (r : Rng) :
    1 ≤ (sample_body S r).1.length ∧ (sample_body S r).1.length ≤ BODY_MAX_TOKENS ∧
      ∀ tok ∈ (sample_body S r).1, tok ∈ PRIMITIVES := by
  unfold sample_body
  obtain ⟨h1, h2⟩ :=
    sample_tokens_spec S (randint S r 1 BODY_MAX_TOKENS).1 (randint S r 1 BODY_MAX_TOKENS).2
  refine ⟨?_, ?_, h2⟩
  · rw [h1]
    simp [randint]
  · rw [h1]
    simp only [randint, rngNext, BODY_MAX_TOKENS]
    omega

/-! Claim theorems: instruction-level semantics. -/

/-- C3 (amended): executing an argument-reference token `ARG k` pushes
`arguments[k]` when `0 ≤ k < len`, pushes `0` when `k ≥ len`, and — per
Python list indexing, contrary to the claim's "push 0 for negative k" —
pushes `arguments[len + k]` when `-len ≤ k < 0` and raises an uncaught
`IndexError` (which is not a `VMError`) when `k < -len`. -/
theorem arg_token_semantics :
    ∀ (S : RandomSource) (c : Config) (k : Int),
      (0 ≤ k → k < (c.inputs.length : Int) → ∃ v,
        c.inputs.get? k.toNat = some v ∧
          execInstr S (.arg k) c = .ok (pushCfg c (.intV v))) ∧
      ((c.inputs.length : Int) ≤ k →
        execInstr S (.arg k) c = .ok (pushCfg c (.intV 0))) ∧
      (k < 0 → 0 ≤ (c.inputs.length : Int) + k → ∃ v,
        c.inputs.get? ((c.inputs.length : Int) + k).toNat = some v ∧
          execInstr S (.arg k) c = .ok (pushCfg c (.intV v))) ∧
      (k < 0 → (c.inputs.length : Int) + k < 0 →
        execInstr S (.arg k) c = .error .indexError) ∧
      VMErr.isVMError .indexError = false := by
  intro S c k
  refine ⟨?_, ?_, ?_, ?_, rfl⟩
  · intro h0 hlt
    have hnat : k.toNat < c.inputs.length := by omega
    have hv : c.inputs.get? k.toNat = some (c.inputs.get ⟨k.toNat, hnat⟩) :=
      List.get?_eq_get hnat
    refine ⟨c.inputs.get ⟨k.toNat, hnat⟩, hv, ?_⟩
    simp only [execInstr]
    rw [if_pos hlt]
    unfold pyGet
    rw [if_pos h0, hv]
  · intro hge
    simp only [execInstr]
    rw [if_neg (by omega)]
  · intro hneg hge
    have hnat : ((c.inputs.length : Int) + k).toNat < c.inputs.length := by omega
    have hv : c.inputs.get? ((c.inputs.length : Int) + k).toNat
        = some (c.inputs.get ⟨((c.inputs.length : Int) + k).toNat, hnat⟩) :=
      List.get?_eq_get hnat
    refine ⟨c.inputs.get ⟨((c.inputs.length : Int) + k).toNat, hnat⟩, hv, ?_⟩
    simp only [execInstr]
    rw [if_pos (by omega)]
    unfold pyGet
    rw [if_neg (by omega), if_pos hge, hv]
  · intro hneg hlt
    simp only [execInstr]
    rw [if_pos (by omega)]
    unfold pyGet
    rw [if_neg (by omega), if_neg (by omega)]

/-- C3 witness: with arguments `[7]`, `ARG 0` pushes `7`. -/
theorem arg_token_semantics_witness :
    ∃ v, ([(7 : Int)] : List Int).get? (0 : Int).toNat = some v ∧
      execInstr S0 (.arg 0) argCfg = .ok (pushCfg argCfg (.intV v)) :=
  (arg_token_semantics S0 argCfg 0).1 (by decide) (by decide)

/-- C3 counterexample: with arguments `[7]`, the token `ARG -1` pushes `7`
(Python negative indexing), not `0` as the claim states. -/
theorem arg_token_counterexample :
    execInstr S0 (.arg (-1)) argCfg = .ok (pushCfg argCfg (.intV 7)) ∧
      execInstr S0 (.arg (-1)) argCfg ≠ .ok (pushCfg argCfg (.intV 0)) := by
  constructor
  · decide
  · decide

/-- C4: on a machine stack holding at least two values (and within the
stack-capacity invariant), `ADD`/`SUB`/`MUL` pop the top two values and
push `binArith`: the exact integer result when both operands are concrete,
the sentinel otherwise; no error is raised, sentinel operands are
absorbing, and an arithmetic result is concrete only when both operands
are. -/
theorem arith_sentinel_propagation :
    ∀ (S : RandomSource) (c : Config) (vb va : StackVal) (rest : List StackVal),
      c.stack = vb :: va :: rest → c.stack.length ≤ STACK_CAP →
      (execInstr S .add c = .ok {c with stack := binArith (fun a b => a + b) va vb :: rest} ∧
        execInstr S .sub c = .ok {c with stack := binArith (fun a b => a - b) va vb :: rest} ∧
        execInstr S .mul c = .ok {c with stack := binArith (fun a b => a * b) va vb :: rest}) ∧
      (∀ (f : Int → Int → Int) (x y : Int), binArith f (.intV x) (.intV y) = .intV (f x y)) ∧
      (∀ (f : Int → Int → Int) (v w : StackVal), v = .sent ∨ w = .sent →
        binArith f v w = .sent) := by
  intro S c vb va rest hs hlen
  rw [hs] at hlen
  simp only [List.length_cons] at hlen
  have hpush : ∀ v : StackVal, pushStack v rest = v :: rest := by
    intro v
    unfold pushStack
    rw [if_neg (by unfold STACK_CAP at *; omega)]
  refine ⟨⟨?_, ?_, ?_⟩, fun f x y => rfl, ?_⟩
  · simp only [execInstr, execBinary, hs, hpush]
  · simp only [execInstr, execBinary, hs, hpush]
  · simp only [execInstr, execBinary, hs, hpush]
  · intro f v w hvw
    rcases hvw with h | h
    · subst h
      cases w <;> rfl
    · subst h
      cases v <;> rfl

/-- C4 witness: on the stack `[2, 3]` (top = 2), `ADD` pushes `5`, and the
sentinel absorbs. -/
theorem arith_sentinel_propagation_witness :
    execInstr S0 .add ⟨[], [.intV 2, .intV 3], [], [], [], ⟨0, 0⟩, 0⟩ =
      .ok {(⟨[], [.intV 2, .intV 3], [], [], [], ⟨0, 0⟩, 0⟩ : Config) with
            stack := binArith (fun a b => a + b) (.intV 3) (.intV 2) :: []} ∧
      binArith (fun a b => a + b) .sent (.intV 2) = .sent :=
  ⟨((arith_sentinel_propagation S0 _ (.intV 2) (.intV 3) [] rfl (by decide)).1).1,
    (arith_sentinel_propagation S0 ⟨[], [.intV 2, .intV 3], [], [], [], ⟨0, 0⟩, 0⟩
      (.intV 2) (.intV 3) [] rfl (by decide)).2.2 _ _ _ (Or.inl rfl)⟩

/-- C5: pushing onto a data stack at capacity does not grow it and does
not fail — it overwrites the top element with the sentinel — and on every
machine state reachable inside any `VM.run` the data-stack length stays
at most `STACK_CAP`. -/
theorem soft_stack_overflow :
    (∀ (v : StackVal) (s : List StackVal), STACK_CAP ≤ s.length →
      pushStack v s = .sent :: s.tail ∧ (pushStack v s).length = s.length) ∧
    ∀ (S : RandomSource) (lib : List (String × Program)) (r : Rng) (p : Program)
      (ins : List Int) (M : Nat) (d : Config),
      StepsTo S M (initConfig lib r p ins) d → d.stack.length ≤ STACK_CAP := by
  constructor
  · intro v s hlen
    unfold pushStack
    rw [if_pos hlen]
    cases s with
    | nil => simp [STACK_CAP] at hlen
    | cons a t => exact ⟨rfl, by simp⟩
  · intro S lib r p ins M d hd
    exact (stepsTo_spec hd).1 (by simp [initConfig, STACK_CAP])

/-- C5 witness: pushing onto a full six-sentinel stack leaves length 6 and
a sentinel top; the initial state of a run has stack length 0 ≤ 6. -/
theorem soft_stack_overflow_witness :
    (pushStack (.intV 9) (List.replicate 6 .sent) = .sent :: (List.replicate 6 StackVal.sent).tail ∧
      (pushStack (.intV 9) (List.replicate 6 .sent)).length = (List.replicate 6 StackVal.sent).length) ∧
      (initConfig [] ⟨0, 0⟩ [] []).stack.length ≤ STACK_CAP :=
  ⟨soft_stack_overflow.1 (.intV 9) (List.replicate 6 .sent) (by decide),
    soft_stack_overflow.2 S0 [] ⟨0, 0⟩ [] [] 0 (initConfig [] ⟨0, 0⟩ [] [])
      Relation.ReflTransGen.refl⟩

theorem step_limit_err {S : RandomSource} {M : Nat} {c : Config}
    (hne : c.frames ≠ []) (hM : M ≤ c.steps) : step S M c = .err .stepLimit := by
  unfold step
  cases hf : c.frames with
  | nil => exact absurd hf hne
  | cons fr rest =>
    obtain ⟨prog, ip⟩ := fr
    dsimp only
    rw [if_pos hM]

/-- C6: a `VM.run` halts normally (returning the output) exactly when the
call stack becomes empty — necessarily with fewer than `M` executed
instructions — fails with the step-limit error exactly when a state with a
nonempty call stack and an executed-instruction count equal to the budget
is reached, and no reachable state ever exceeds the budget. -/
theorem run_halting_contract :
    ∀ (S : RandomSource) (lib : List (String × Program)) (r : Rng) (p : Program)
      (ins : List Int) (M : Nat),
      (∀ d, runVM S lib r p ins M = .ok d →
        StepsTo S M (initConfig lib r p ins) d ∧ d.frames = [] ∧ d.steps < M) ∧
      (∀ d, StepsTo S M (initConfig lib r p ins) d → d.frames = [] →
        runVM S lib r p ins M = .ok d) ∧
      (runVM S lib r p ins M = .error .stepLimit ↔
        ∃ d, StepsTo S M (initConfig lib r p ins) d ∧ d.frames ≠ [] ∧ d.steps = M) ∧
      (∀ d, StepsTo S M (initConfig lib r p ins) d → d.steps ≤ M) := by
  intro S lib r p ins M
  have hinit_ne : (initConfig lib r p ins).frames ≠ [] := by simp [initConfig]
  have hle : ∀ d, StepsTo S M (initConfig lib r p ins) d → d.steps ≤ M := by
    intro d hd
    exact (stepsTo_spec hd).2.2.1 (by simp [initConfig])
  refine ⟨?_, ?_, ⟨?_, ?_⟩, hle⟩
  · intro d h
    unfold runVM runLoop at h
    obtain ⟨h1, h2⟩ := runLoopF_ok _ h
    exact ⟨h1, h2, runLoopF_ok_steps _ hinit_ne h⟩
  · intro d hsteps hframes
    unfold runVM
    rw [stepsTo_runLoop hsteps, runLoop_unfold, step_frames_empty hframes]
  · intro h
    unfold runVM runLoop at h
    obtain ⟨d, hd1, hd2, hd3⟩ := runLoopF_errLimit _ (le_refl _) h
    exact ⟨d, hd1, hd2, le_antisymm (hle d hd1) hd3⟩
  · intro ⟨d, hd1, hd2, hd3⟩
    unfold runVM
    rw [stepsTo_runLoop hd1, runLoop_unfold, step_limit_err hd2 (le_of_eq hd3.symm)]

/-- C6 witness: running `[PUSH 0]` with budget 2 halts normally in the
state with empty frames, stack `[0]` and one executed instruction. -/
theorem run_halting_contract_witness :
    StepsTo S0 2 (initConfig [] ⟨0, 0⟩ [.push 0] [])
        ⟨[], [.intV 0], [], [], [], ⟨0, 0⟩, 1⟩ ∧
      (⟨[], [.intV 0], [], [], [], ⟨0, 0⟩, 1⟩ : Config).frames = [] ∧
      (⟨[], [.intV 0], [], [], [], ⟨0, 0⟩, 1⟩ : Config).steps < 2 :=
  (run_halting_contract S0 [] ⟨0, 0⟩ [.push 0] [] 2).1
    ⟨[], [.intV 0], [], [], [], ⟨0, 0⟩, 1⟩ (by decide)

/-- C7: executing a call to a name unbound in the library (with the call
stack below capacity) extends the library by exactly the one new entry
`(f, body)` with `body` freshly sampled — its length lies in
`[1, BODY_MAX_TOKENS]` and its tokens come from `PRIMITIVES`, and no other
name's binding changes — and every binding present in a machine state
persists unchanged through all later steps of the run (the one-way
ratchet). -/
theorem wildcard_binding_ratchet :
    (∀ (S : RandomSource) (c : Config) (f : String),
      c.frames.length < CALL_CAP → libLookup f c.library = none →
      execInstr S (.call f) c = .ok {c with
          library := c.library ++ [(f, (sample_body S c.rng).1)],
          rng := (sample_body S c.rng).2,
          frames := ((sample_body S c.rng).1, 0) :: c.frames} ∧
        1 ≤ (sample_body S c.rng).1.length ∧
        (sample_body S c.rng).1.length ≤ BODY_MAX_TOKENS ∧
        (∀ tok ∈ (sample_body S c.rng).1, tok ∈ PRIMITIVES) ∧
        (∀ g, g ≠ f →
          libLookup g (c.library ++ [(f, (sample_body S c.rng).1)]) =
            libLookup g c.library)) ∧
    ∀ (S : RandomSource) (M : Nat) (c d : Config) (f : String) (b : Program),
      StepsTo S M c d → libLookup f c.library = some b → libLookup f d.library = some b := by
  constructor
  · intro S c f hdepth hnone
    obtain ⟨hb1, hb2, hb3⟩ := sample_body_spec S c.rng
    refine ⟨?_, hb1, hb2, hb3, ?_⟩
    · simp only [execInstr]
      rw [if_neg (by omega), hnone]
    · intro g hg
      exact libLookup_append_ne hg
  · intro S M c d f b hsteps hb
    exact (stepsTo_spec hsteps).2.1 f b hb

/-- C7 witness: under the all-zero source, calling the unbound name `f`
from a one-frame state binds it to the sampled body `[DUP]`. -/
theorem wildcard_binding_ratchet_witness :
    execInstr S0 (.call ("f")) (⟨[([], 0)], [], [], [], [], ⟨0, 0⟩, 0⟩ : Config) =
      .ok {(⟨[([], 0)], [], [], [], [], ⟨0, 0⟩, 0⟩ : Config) with
          library := [] ++ [(("f"), (sample_body S0 ⟨0, 0⟩).1)],
          rng := (sample_body S0 ⟨0, 0⟩).2,
          frames := ((sample_body S0 ⟨0, 0⟩).1, 0) :: [([], 0)]} ∧
      1 ≤ (sample_body S0 ⟨0, 0⟩).1.length :=
  ⟨((wildcard_binding_ratchet.1 S0 ⟨[([], 0)], [], [], [], [], ⟨0, 0⟩, 0⟩ ("f")
      (by decide) (by decide)).1),
    ((wildcard_binding_ratchet.1 S0 ⟨[([], 0)], [], [], [], [], ⟨0, 0⟩, 0⟩ ("f")
      (by decide) (by decide)).2.1)⟩

/-- C10 (implicit): `VM.run` resets the data stack, the output and the
frames and installs the inputs, while leaving the instance library
untouched at entry; consequently a binding present after one `run()`
(e.g. a wildcard body bound during it) is still looked up — not resampled
— by every later `run()` on the same instance: all states reachable in
the later run keep the binding, and a call to the bound name simply
pushes a frame for the stored body. -/
theorem run_reset_library_persistence :
    (∀ (lib : List (String × Program)) (r : Rng) (p : Program) (ins : List Int),
      (initConfig lib r p ins).stack = [] ∧ (initConfig lib r p ins).output = [] ∧
        (initConfig lib r p ins).frames = [(p, 0)] ∧
        (initConfig lib r p ins).library = lib ∧ (initConfig lib r p ins).inputs = ins ∧
        ∀ (S : RandomSource) (M : Nat),
          runVM S lib r p ins M = runLoop S M (initConfig lib r p ins)) ∧
    ∀ (S : RandomSource) (lib : List (String × Program)) (r : Rng) (p1 : Program)
      (ins1 : List Int) (M1 : Nat) (d : Config) (f : String) (b : Program),
      runVM S lib r p1 ins1 M1 = .ok d → libLookup f d.library = some b →
      ∀ (M2 : Nat) (p2 : Program) (ins2 : List Int) (c' : Config),
        StepsTo S M2 (initConfig d.library d.rng p2 ins2) c' →
        libLookup f c'.library = some b ∧
        (c'.frames.length < CALL_CAP →
          execInstr S (.call f) c' = .ok {c' with frames := (b, 0) :: c'.frames}) := by
  constructor
  · intro lib r p ins
    exact ⟨rfl, rfl, rfl, rfl, rfl, fun S M => rfl⟩
  · intro S lib r p1 ins1 M1 d f b _hrun hb M2 p2 ins2 c' hsteps
    have hlk : libLookup f c'.library = some b :=
      (stepsTo_spec hsteps).2.1 f b (by simpa [initConfig] using hb)
    refine ⟨hlk, ?_⟩
    intro hdepth
    simp only [execInstr]
    rw [if_neg (by omega), hlk]

/-- C10 witness: a run of `[CALL f]` under `wildSource` binds `f` to
`[PUSH -2]` and succeeds; a second run on the resulting instance state
still sees the binding and a `CALL f` from its initial state pushes a
frame for that stored body. -/
theorem run_reset_library_persistence_witness :
    libLookup ("f")
        (initConfig [(("f"), [Instr.push (-2)])] ⟨0, 2⟩ [] []).library =
          some [Instr.push (-2)] ∧
      execInstr wildSource (.call ("f"))
          (initConfig [(("f"), [Instr.push (-2)])] ⟨0, 2⟩ [] []) =
        .ok {(initConfig [(("f"), [Instr.push (-2)])] ⟨0, 2⟩ [] []) with
            frames := ([Instr.push (-2)], 0) ::
              (initConfig [(("f"), [Instr.push (-2)])] ⟨0, 2⟩ [] []).frames} := by
  have h := (run_reset_library_persistence.2 wildSource [] ⟨0, 0⟩ [.call ("f")] [] 10
    ⟨[], [.intV (-2)], [], [], [(("f"), [Instr.push (-2)])], ⟨0, 2⟩, 2⟩ ("f")
    [Instr.push (-2)] (by decide) (by decide) 10 [] []
    (initConfig [(("f"), [Instr.push (-2)])] ⟨0, 2⟩ [] []) Relation.ReflTransGen.refl)
  exact ⟨by simpa [initConfig] using h.1, h.2 (by decide)⟩

/-! Characterisation of the per-example checks in terms of `run_vm` and
the derived per-example generator seeds. -/

theorem randint_seed (S : RandomSource) (r : Rng) :
    randint S r 0 (2 ^ 32 - 1) = (exSeed S r 0, ⟨r.seed, r.pos + 1⟩) := by
  have h : 2 ^ 32 - 1 - 0 + 1 = 2 ^ 32 := by norm_num
  simp [randint, rngNext, exSeed, h]

theorem exSeed_shift (S : RandomSource) (r : Rng) (i : Nat) :
    exSeed S ⟨r.seed, r.pos + 1⟩ i = exSeed S r (i + 1) := by
  show S.gen r.seed (r.pos + 1 + i) % 2 ^ 32 = S.gen r.seed (r.pos + (i + 1)) % 2 ^ 32
  rw [Nat.add_assoc, Nat.add_comm 1 i]

theorem prefix_ok_cons (S : RandomSource) (p : Program) (inp exp : List Int)
    (rest : List (List Int × List Int)) (r : Rng) :
    prefix_ok S p ((inp, exp) :: rest) r =
      match run_vm S p inp (mkRng (exSeed S r 0)) with
      | none => (false, ⟨r.seed, r.pos + 1⟩)
      | some out =>
        if prefixMismatch out exp then (false, ⟨r.seed, r.pos + 1⟩)
        else prefix_ok S p rest ⟨r.seed, r.pos + 1⟩ := by
  simp only [prefix_ok]
  rw [randint_seed]

theorem candidate_ok_cons (S : RandomSource) (p : Program) (inp exp : List Int)
    (rest : List (List Int × List Int)) (r : Rng) :
    candidate_ok S p ((inp, exp) :: rest) r =
      match run_vm S p inp (mkRng (exSeed S r 0)) with
      | none => (false, ⟨r.seed, r.pos + 1⟩)
      | some out =>
        if out = exp.map StackVal.intV then candidate_ok S p rest ⟨r.seed, r.pos + 1⟩
        else (false, ⟨r.seed, r.pos + 1⟩) := by
  simp only [candidate_ok]
  rw [randint_seed]

theorem prefix_ok_iff (S : RandomSource) (p : Program) :
    ∀ (exs : List (List Int × List Int)) (r : Rng),
      (prefix_ok S p exs r).1 = true ↔
        ∀ (i : Nat) (h : i < exs.length), ∃ out,
          run_vm S p (exs.get ⟨i, h⟩).1 (mkRng (exSeed S r i)) = some out ∧
            prefixMismatch out (exs.get ⟨i, h⟩).2 = false := by
  intro exs
  induction exs with
  | nil =>
    intro r
    constructor
    · intro _ i hi
      simp at hi
    · intro _
      rfl
  | cons e rest ih =>
    intro r
    obtain ⟨inp, exp⟩ := e
    rw [prefix_ok_cons]
    cases hrun : run_vm S p inp (mkRng (exSeed S r 0)) with
    | none =>
      constructor
      · intro h
        exact absurd h (by simp)
      · intro hall
        obtain ⟨out, hout, _⟩ := hall 0 (by simp)
        simp only [List.get] at hout
        rw [hrun] at hout
        cases hout
    | some out =>
      cases hmis : prefixMismatch out exp with
      | true =>
        simp only [hmis, if_true]
        constructor
        · intro h
          exact absurd h (by simp)
        · intro hall
          obtain ⟨out2, hout2, hm2⟩ := hall 0 (by simp)
          simp only [List.get] at hout2 hm2
          rw [hrun] at hout2
          cases hout2
          rw [hmis] at hm2
          cases hm2
      | false =>
        simp only [hmis, Bool.false_eq_true, if_false]
        rw [ih ⟨r.seed, r.pos + 1⟩]
        constructor
        · intro hall i hi
          cases i with
          | zero =>
            exact ⟨out, by simpa [List.get] using hrun, by simpa [List.get] using hmis⟩
          | succ j =>
            have hj : j < rest.length := by simpa using hi
            obtain ⟨out2, hout2, hm2⟩ := hall j hj
            refine ⟨out2, ?_, ?_⟩
            · rw [← exSeed_shift]
              simpa [List.get] using hout2
            · simpa [List.get] using hm2
        · intro hall i hi
          have hi1 : i + 1 < ((inp, exp) :: rest).length := by simpa using hi
          obtain ⟨out2, hout2, hm2⟩ := hall (i + 1) hi1
          refine ⟨out2, ?_, ?_⟩
          · rw [exSeed_shift]
            simpa [List.get] using hout2
          · simpa [List.get] using hm2

theorem candidate_ok_iff (S : RandomSource) (p : Program) :
    ∀ (exs : List (List Int × List Int)) (r : Rng),
      (candidate_ok S p exs r).1 = true ↔
        ∀ (i : Nat) (h : i < exs.length),
          run_vm S p (exs.get ⟨i, h⟩).1 (mkRng (exSeed S r i)) =
            some ((exs.get ⟨i, h⟩).2.map StackVal.intV) := by
  intro exs
  induction exs with
  | nil =>
    intro r
    constructor
    · intro _ i hi
      simp at hi
    · intro _
      rfl
  | cons e rest ih =>
    intro r
    obtain ⟨inp, exp⟩ := e
    rw [candidate_ok_cons]
    cases hrun : run_vm S p inp (mkRng (exSeed S r 0)) with
    | none =>
      constructor
      · intro h
        exact absurd h (by simp)
      · intro hall
        have hout := hall 0 (by simp)
        simp only [List.get] at hout
        rw [hrun] at hout
        cases hout
    | some out =>
      dsimp only
      by_cases heq : out = exp.map StackVal.intV
      · rw [if_pos heq]
        rw [ih ⟨r.seed, r.pos + 1⟩]
        constructor
        · intro hall i hi
          cases i with
          | zero =>
            subst heq
            simpa [List.get] using hrun
          | succ j =>
            have hj : j < rest.length := by simpa using hi
            have hout2 := hall j hj
            rw [← exSeed_shift]
            simpa [List.get] using hout2
        · intro hall i hi
          have hi1 : i + 1 < ((inp, exp) :: rest).length := by simpa using hi
          have hout2 := hall (i + 1) hi1
          rw [exSeed_shift]
          simpa [List.get] using hout2
      · rw [if_neg heq]
        constructor
        · intro h
          exact absurd h (by simp)
        · intro hall
          have hout := hall 0 (by simp)
          simp only [List.get] at hout
          rw [hrun] at hout
          cases hout
          exact absurd rfl heq

/-! Call-free programs never consult the PRNG or the library, so their
runs are independent of both the generator state and the random source. -/

theorem execInstr_setRL (S1 S2 : RandomSource) (i : Instr) (hcf : isCall i = false)
    (c : Config) (lib : List (String × Program)) (r' : Rng) :
    execInstr S2 i {c with library := lib, rng := r'} =
      Except.map (fun x => {x with library := lib, rng := r'}) (execInstr S1 i c) := by
  obtain ⟨fs, stk, out, ins, lib1, r1, st⟩ := c
  cases i with
  | call f => simp [isCall] at hcf
  | push n => rfl
  | dup => cases stk <;> rfl
  | add => rcases stk with _ | ⟨b, _ | ⟨a, rest⟩⟩ <;> rfl
  | sub => rcases stk with _ | ⟨b, _ | ⟨a, rest⟩⟩ <;> rfl
  | mul => rcases stk with _ | ⟨b, _ | ⟨a, rest⟩⟩ <;> rfl
  | print => cases stk <;> rfl
  | select => rcases stk with _ | ⟨b, _ | ⟨a, _ | ⟨cond, rest⟩⟩⟩ <;> rfl
  | eq => rcases stk with _ | ⟨b, _ | ⟨a, rest⟩⟩ <;> rfl
  | arg k =>
    simp only [execInstr]
    split
    · cases pyGet ins k <;> rfl
    · rfl

theorem execInstr_frames_noncall {S : RandomSource} {i : Instr} {c c' : Config}
    (hcf : isCall i = false) (h : execInstr S i c = .ok c') : c'.frames = c.frames := by
  cases i with
  | call f => simp [isCall] at hcf
  | push n =>
    simp only [execInstr, Except.ok.injEq] at h
    subst h
    rfl
  | dup =>
    simp only [execInstr] at h
    split at h
    · cases h
    · simp only [Except.ok.injEq] at h
      subst h
      rfl
  | add =>
    simp only [execInstr, execBinary] at h
    split at h
    · simp only [Except.ok.injEq] at h
      subst h
      rfl
    · cases h
  | sub =>
    simp only [execInstr, execBinary] at h
    split at h
    · simp only [Except.ok.injEq] at h
      subst h
      rfl
    · cases h
  | mul =>
    simp only [execInstr, execBinary] at h
    split at h
    · simp only [Except.ok.injEq] at h
      subst h
      rfl
    · cases h
  | print =>
    simp only [execInstr] at h
    split at h
    · cases h
    · simp only [Except.ok.injEq] at h
      subst h
      rfl
  | arg k =>
    simp only [execInstr] at h
    split at h
    · split at h
      · simp only [Except.ok.injEq] at h
        subst h
        rfl
      · cases h
    · simp only [Except.ok.injEq] at h
      subst h
      rfl
  | select =>
    simp only [execInstr] at h
    split at h
    · simp only [Except.ok.injEq] at h
      subst h
      rfl
    · cases h
  | eq =>
    simp only [execInstr] at h
    split at h
    · simp only [Except.ok.injEq] at h
      subst h
      rfl
    · cases h

theorem step_setRL (S1 S2 : RandomSource) (M : Nat) (c : Config)
    (lib : List (String × Program)) (r' : Rng) (hcf : framesCF c.frames = true) :
    step S2 M {c with library := lib, rng := r'} =
      mapStepRes (fun x => {x with library := lib, rng := r'}) (step S1 M c) := by
  obtain ⟨fs, stk, out, ins, lib1, r1, st⟩ := c
  unfold step
  dsimp only
  cases fs with
  | nil => rfl
  | cons fr rest =>
    obtain ⟨prog, ip⟩ := fr
    dsimp only
    by_cases hM : M ≤ st
    · rw [if_pos hM, if_pos hM]
      rfl
    · rw [if_neg hM, if_neg hM]
      by_cases hip : prog.length ≤ ip
      · rw [dif_pos hip, dif_pos hip]
        rfl
      · rw [dif_neg hip, dif_neg hip]
        have hpcf : progCallFree prog = true := by
          simp only [framesCF, List.all_cons, Bool.and_eq_true] at hcf
          exact hcf.1
        have hcall : isCall (prog.get ⟨ip, by omega⟩) = false := by
          have hmem := List.get_mem prog ip (by omega)
          have := (List.all_eq_true.mp hpcf) _ hmem
          simpa using this
        have hx := execInstr_setRL S1 S2 (prog.get ⟨ip, by omega⟩) hcall
          ⟨(prog, ip + 1) :: rest, stk, out, ins, lib1, r1, st⟩ lib r'
        rw [show execInstr S2 (prog.get ⟨ip, by omega⟩)
            ⟨(prog, ip + 1) :: rest, stk, out, ins, lib, r', st⟩ =
          Except.map (fun x => {x with library := lib, rng := r'})
            (execInstr S1 (prog.get ⟨ip, by omega⟩)
              ⟨(prog, ip + 1) :: rest, stk, out, ins, lib1, r1, st⟩) from hx]
        cases execInstr S1 (prog.get ⟨ip, by omega⟩)
            ⟨(prog, ip + 1) :: rest, stk, out, ins, lib1, r1, st⟩ with
        | error e => rfl
        | ok c2 => rfl

theorem step_framesCF {S : RandomSource} {M : Nat} {c d : Config}
    (hcf : framesCF c.frames = true) (h : step S M c = .next d) :
    framesCF d.frames = true := by
  unfold step at h
  cases hf : c.frames with
  | nil => rw [hf] at h; cases h
  | cons fr rest =>
    rw [hf] at h
    obtain ⟨prog, ip⟩ := fr
    rw [hf] at hcf
    simp only [framesCF, List.all_cons, Bool.and_eq_true] at hcf
    dsimp only at h
    split at h
    · cases h
    · split at h
      · cases h
        exact hcf.2
      · rename_i hM hip
        split at h
        · cases h
        · rename_i c2 hexec
          cases h
          have hcall : isCall (prog.get ⟨ip, by omega⟩) = false := by
            have hmem := List.get_mem prog ip (by omega)
            have := (List.all_eq_true.mp hcf.1) _ hmem
            simpa using this
          have hfr := execInstr_frames_noncall hcall hexec
          show framesCF c2.frames = true
          rw [hfr]
          show framesCF ((prog, ip + 1) :: rest) = true
          simp only [framesCF, List.all_cons, Bool.and_eq_true]
          exact ⟨hcf.1, hcf.2⟩

theorem runLoopF_setRL (S1 S2 : RandomSource) (M : Nat) :
    ∀ (fuel : Nat) (c : Config) (lib : List (String × Program)) (r' : Rng),
      framesCF c.frames = true →
      runLoopF S2 M fuel {c with library := lib, rng := r'} =
        Except.map (fun x => {x with library := lib, rng := r'}) (runLoopF S1 M fuel c) := by
  intro fuel
  induction fuel with
  | zero => intro c lib r' _; rfl
  | succ n ih =>
    intro c lib r' hcf
    unfold runLoopF
    rw [step_setRL S1 S2 M c lib r' hcf]
    cases hs : step S1 M c with
    | halt d => rfl
    | err e => rfl
    | next d =>
      show runLoopF S2 M n {d with library := lib, rng := r'} = _
      rw [ih d lib r' (step_framesCF hcf hs)]

theorem run_vm_callFree (S1 S2 : RandomSource) (p : Program) (ins : List Int) (r1 r2 : Rng)
    (hcf : progCallFree p = true) : run_vm S1 p ins r1 = run_vm S2 p ins r2 := by
  have hcf1 : framesCF (initConfig [] r1 p ins).frames = true := by
    show framesCF [(p, 0)] = true
    simp only [framesCF, List.all_cons, List.all_nil, Bool.and_eq_true]
    exact ⟨hcf, trivial⟩
  have h2 := runLoopF_setRL S1 S2 1000 (vmFuel 1000 (initConfig [] r1 p ins))
    (initConfig [] r1 p ins) [] r2 hcf1
  unfold run_vm runVM runLoop
  rw [show initConfig [] r2 p ins =
    {initConfig ([] : List (String × Program)) r1 p ins with
      library := ([] : List (String × Program)), rng := r2} from rfl]
  rw [show vmFuel 1000 ({initConfig ([] : List (String × Program)) r1 p ins with
      library := ([] : List (String × Program)), rng := r2} : Config) =
    vmFuel 1000 (initConfig [] r1 p ins) from rfl]
  rw [h2]
  cases runLoopF S1 1000 (vmFuel 1000 (initConfig [] r1 p ins)) (initConfig [] r1 p ins) with
  | ok c => rfl
  | error e => rfl

theorem prefix_ok_fst_eq (S1 S2 : RandomSource) (p : Program) (hcf : progCallFree p = true) :
    ∀ (exs : List (List Int × List Int)) (r1 r2 : Rng),
      (prefix_ok S1 p exs r1).1 = (prefix_ok S2 p exs r2).1 := by
  intro exs
  induction exs with
  | nil => intro r1 r2; rfl
  | cons e rest ih =>
    intro r1 r2
    obtain ⟨inp, exp⟩ := e
    rw [prefix_ok_cons, prefix_ok_cons]
    rw [run_vm_callFree S1 S2 p inp (mkRng (exSeed S1 r1 0)) (mkRng (exSeed S2 r2 0)) hcf]
    cases hrun : run_vm S2 p inp (mkRng (exSeed S2 r2 0)) with
    | none => rfl
    | some out =>
      dsimp only
      by_cases hm : prefixMismatch out exp = true
      · rw [if_pos hm, if_pos hm]
      · rw [if_neg hm, if_neg hm]
        exact ih _ _

theorem candidate_ok_fst_eq (S1 S2 : RandomSource) (p : Program) (hcf : progCallFree p = true) :
    ∀ (exs : List (List Int × List Int)) (r1 r2 : Rng),
      (candidate_ok S1 p exs r1).1 = (candidate_ok S2 p exs r2).1 := by
  intro exs
  induction exs with
  | nil => intro r1 r2; rfl
  | cons e rest ih =>
    intro r1 r2
    obtain ⟨inp, exp⟩ := e
    rw [candidate_ok_cons, candidate_ok_cons]
    rw [run_vm_callFree S1 S2 p inp (mkRng (exSeed S1 r1 0)) (mkRng (exSeed S2 r2 0)) hcf]
    cases hrun : run_vm S2 p inp (mkRng (exSeed S2 r2 0)) with
    | none => rfl
    | some out =>
      dsimp only
      by_cases hm : out = exp.map StackVal.intV
      · rw [if_pos hm, if_pos hm]
        exact ih _ _
      · rw [if_neg hm, if_neg hm]

theorem prefixOkPure_eq (S : RandomSource) (p : Program) (hcf : progCallFree p = true)
    (exs : List (List Int × List Int)) (r : Rng) :
    (prefix_ok S p exs r).1 = prefixOkPure p exs :=
  prefix_ok_fst_eq S S0 p hcf exs r ⟨0, 0⟩

theorem candOkPure_eq (S : RandomSource) (p : Program) (hcf : progCallFree p = true)
    (exs : List (List Int × List Int)) (r : Rng) :
    (candidate_ok S p exs r).1 = candOkPure p exs :=
  candidate_ok_fst_eq S S0 p hcf exs r ⟨0, 0⟩

/-! Facts about expansion and the search loop. -/

theorem expandStep_eq (S : RandomSource) (exs : List (List Int × List Int)) (p : Program)
    (acc : List SNode × Rng) (tok : Instr) :
    expandStep S exs p acc tok =
      if (prefix_ok S (p ++ [tok]) exs acc.2).1 then
        (⟨p ++ [tok],
            mkRng (randint S (prefix_ok S (p ++ [tok]) exs acc.2).2 0 (2 ^ 32 - 1)).1⟩ :: acc.1,
          (randint S (prefix_ok S (p ++ [tok]) exs acc.2).2 0 (2 ^ 32 - 1)).2)
      else (acc.1, (prefix_ok S (p ++ [tok]) exs acc.2).2) := rfl

theorem expandStep_acc_mem {S : RandomSource} {exs : List (List Int × List Int)} {p : Program}
    {acc : List SNode × Rng} {tok : Instr} {x : SNode} (h : x ∈ acc.1) :
    x ∈ (expandStep S exs p acc tok).1 := by
  rw [expandStep_eq]
  split
  · exact List.mem_cons_of_mem _ h
  · exact h

theorem expandNode_acc_mem (S : RandomSource) (exs : List (List Int × List Int)) (p : Program) :
    ∀ (toks : List Instr) (acc : List SNode × Rng) (x : SNode),
      x ∈ acc.1 → x ∈ (toks.foldl (expandStep S exs p) acc).1 := by
  intro toks
  induction toks with
  | nil => intro acc x h; exact h
  | cons tk ts ih =>
    intro acc x h
    rw [List.foldl_cons]
    exact ih _ _ (expandStep_acc_mem h)

theorem expandNode_sound (S : RandomSource) (exs : List (List Int × List Int)) (p : Program) :
    ∀ (toks : List Instr) (acc : List SNode × Rng) (x : SNode),
      x ∈ (toks.foldl (expandStep S exs p) acc).1 →
      x ∈ acc.1 ∨ ∃ tok ∈ toks, x.prog = p ++ [tok] ∧
        ∃ r1 r2 : Rng, prefix_ok S x.prog exs r1 = (true, r2) := by
  intro toks
  induction toks with
  | nil => intro acc x h; exact Or.inl h
  | cons tk ts ih =>
    intro acc x h
    rw [List.foldl_cons] at h
    rcases ih _ x h with h2 | ⟨tok, htok, hp, hr⟩
    · rw [expandStep_eq] at h2
      by_cases hok : (prefix_ok S (p ++ [tk]) exs acc.2).1 = true
      · rw [if_pos hok] at h2
        rcases List.mem_cons.mp h2 with rfl | hacc
        · refine Or.inr ⟨tk, List.mem_cons_self _ _, rfl, acc.2,
            (prefix_ok S (p ++ [tk]) exs acc.2).2, ?_⟩
          conv_lhs => rw [← Prod.mk.eta (p := prefix_ok S (p ++ [tk]) exs acc.2)]
          rw [hok]
        · exact Or.inl hacc
      · rw [if_neg hok] at h2
        exact Or.inl h2
    · exact Or.inr ⟨tok, List.mem_cons_of_mem _ htok, hp, hr⟩

theorem expandNode_len (S : RandomSource) (exs : List (List Int × List Int)) (p : Program) :
    ∀ (toks : List Instr) (acc : List SNode × Rng),
      (toks.foldl (expandStep S exs p) acc).1.length ≤ acc.1.length + toks.length := by
  intro toks
  induction toks with
  | nil => intro acc; simp
  | cons tk ts ih =>
    intro acc
    rw [List.foldl_cons]
    have h1 := ih (expandStep S exs p acc tk)
    have h2 : (expandStep S exs p acc tk).1.length ≤ acc.1.length + 1 := by
      rw [expandStep_eq]
      split
      · simp
      · simp
    simp only [List.length_cons] at *
    omega

theorem expandNode_mem (S : RandomSource) (exs : List (List Int × List Int)) (p : Program) :
    ∀ (toks : List Instr) (acc : List SNode × Rng) (tok : Instr), tok ∈ toks →
      progCallFree (p ++ [tok]) = true → prefixOkPure (p ++ [tok]) exs = true →
      ∃ x ∈ (toks.foldl (expandStep S exs p) acc).1, x.prog = p ++ [tok] := by
  intro toks
  induction toks with
  | nil => intro acc tok h; simp at h
  | cons tk ts ih =>
    intro acc tok htok hcf hok
    rw [List.foldl_cons]
    rcases List.mem_cons.mp htok with rfl | hmem
    · have hb : (prefix_ok S (p ++ [tok]) exs acc.2).1 = true := by
        rw [prefixOkPure_eq S _ hcf]
        exact hok
      refine ⟨⟨p ++ [tok],
          mkRng (randint S (prefix_ok S (p ++ [tok]) exs acc.2).2 0 (2 ^ 32 - 1)).1⟩, ?_, rfl⟩
      apply expandNode_acc_mem
      rw [expandStep_eq, if_pos hb]
      exact List.mem_cons_self _ _
    · exact ih _ tok hmem hcf hok

theorem progCallFree_take {p : Program} (h : progCallFree p = true) (k : Nat) :
    progCallFree (p.take k) = true := by
  simp only [progCallFree, List.all_eq_true] at h ⊢
  intro i hi
  exact h i (List.take_subset k p hi)

theorem take_succ_get {α : Type} (l : List α) (k : Nat) (h : k < l.length) :
    l.take (k + 1) = l.take k ++ [l.get ⟨k, h⟩] := by
  rw [List.take_succ, List.getElem?_eq_getElem h, List.get_eq_getElem]
  rfl

theorem treeW_pos (B : Nat) (d : Nat) : 1 ≤ treeW B d := by
  cases d with
  | zero => exact le_refl 1
  | succ m =>
    show 1 ≤ 1 + B * treeW B m
    omega

theorem queueWeight_cons (B maxT : Nat) (node : SNode) (rest : List SNode) :
    queueWeight B maxT (node :: rest) =
      treeW B (maxT - node.prog.length) + queueWeight B maxT rest := by
  simp [queueWeight]

theorem queueWeight_append (B maxT : Nat) (q1 q2 : List SNode) :
    queueWeight B maxT (q1 ++ q2) = queueWeight B maxT q1 + queueWeight B maxT q2 := by
  simp [queueWeight]

theorem trimQueue_weight (B maxT : Nat) (beam : Option Nat) (q : List SNode) :
    queueWeight B maxT (trimQueue beam q) ≤ queueWeight B maxT q := by
  cases beam with
  | none => exact le_refl _
  | some b =>
    show queueWeight B maxT (if b ≠ 0 ∧ b < q.length then q.take b else q) ≤ _
    split
    · conv_rhs => rw [← List.take_append_drop b q]
      rw [queueWeight_append]
      omega
    · exact le_refl _

theorem expandNode_weight (S : RandomSource) (exs : List (List Int × List Int))
    (p : Program) (toks : List Instr) (r : Rng) (maxT : Nat) (hlt : p.length < maxT) :
    queueWeight toks.length maxT (expandNode S exs p toks r).1 + 1 ≤
      treeW toks.length (maxT - p.length) := by
  have hw : ∀ x ∈ (expandNode S exs p toks r).1,
      treeW toks.length (maxT - x.prog.length) ≤ treeW toks.length (maxT - p.length - 1) := by
    intro x hx
    rcases expandNode_sound S exs p toks ([], r) x hx with h | ⟨tok, _, hp, _⟩
    · simp at h
    · rw [hp, List.length_append]
      have hx2 : maxT - (p.length + [tok].length) = maxT - p.length - 1 := by
        simp only [List.length_singleton]
        omega
      rw [hx2]
  have hsum : queueWeight toks.length maxT (expandNode S exs p toks r).1 ≤
      (expandNode S exs p toks r).1.length * treeW toks.length (maxT - p.length - 1) := by
    unfold queueWeight
    have hb := List.sum_le_card_nsmul ((expandNode S exs p toks r).1.map
      (fun nd => treeW toks.length (maxT - nd.prog.length)))
      (treeW toks.length (maxT - p.length - 1)) ?_
    · simpa [smul_eq_mul] using hb
    · intro y hy
      obtain ⟨x, hx, rfl⟩ := List.mem_map.mp hy
      exact hw x hx
  have hlen := expandNode_len S exs p toks ([], r)
  simp only [List.length_nil, Nat.zero_add] at hlen
  have hmul : (expandNode S exs p toks r).1.length * treeW toks.length (maxT - p.length - 1)
      ≤ toks.length * treeW toks.length (maxT - p.length - 1) :=
    Nat.mul_le_mul_right _ hlen
  have hd : maxT - p.length = (maxT - p.length - 1) + 1 := by omega
  rw [hd]
  show _ + 1 ≤ 1 + toks.length * treeW toks.length (maxT - p.length - 1)
  omega

theorem searchLoopF_succ (S : RandomSource) (exs : List (List Int × List Int))
    (maxT : Nat) (beam : Option Nat) (aw : Bool) (n : Nat) (queue : List SNode)
    (sols : List Program) :
    searchLoopF S exs maxT beam aw (n + 1) queue sols =
      match trimQueue beam queue with
      | [] => sols
      | node :: rest =>
        if (candidate_ok S node.prog exs node.rng).1 then
          searchLoopF S exs maxT beam aw n rest (sols ++ [node.prog])
        else if maxT ≤ node.prog.length then
          searchLoopF S exs maxT beam aw n rest sols
        else
          searchLoopF S exs maxT beam aw n
            ((expandNode S exs node.prog (tokenSpace aw)
              (candidate_ok S node.prog exs node.rng).2).1 ++ rest) sols := rfl

theorem searchLoopF_sound (S : RandomSource) (exs : List (List Int × List Int))
    (maxT : Nat) (beam : Option Nat) (aw : Bool) :
    ∀ (fuel : Nat) (queue : List SNode) (sols : List Program) (x : Program),
      x ∈ searchLoopF S exs maxT beam aw fuel queue sols →
      x ∈ sols ∨ ∃ r r' : Rng, candidate_ok S x exs r = (true, r') := by
  intro fuel
  induction fuel with
  | zero => intro queue sols x h; exact Or.inl h
  | succ n ih =>
    intro queue sols x h
    rw [searchLoopF_succ] at h
    cases htr : trimQueue beam queue with
    | nil => rw [htr] at h; exact Or.inl h
    | cons node rest =>
      rw [htr] at h
      dsimp only at h
      by_cases hok : (candidate_ok S node.prog exs node.rng).1 = true
      · rw [if_pos hok] at h
        rcases ih _ _ _ h with hs | hr
        · rcases List.mem_append.mp hs with h1 | h2
          · exact Or.inl h1
          · have hx : x = node.prog := by simpa using h2
            subst hx
            refine Or.inr ⟨node.rng, (candidate_ok S node.prog exs node.rng).2, ?_⟩
            conv_lhs => rw [← Prod.mk.eta (p := candidate_ok S node.prog exs node.rng)]
            rw [hok]
        · exact Or.inr hr
      · rw [if_neg hok] at h
        by_cases hcut : maxT ≤ node.prog.length
        · rw [if_pos hcut] at h
          exact ih _ _ _ h
        · rw [if_neg hcut] at h
          exact ih _ _ _ h

theorem searchLoopF_complete (S : RandomSource) (exs : List (List Int × List Int))
    (maxT : Nat) (t : Program) (hlen : t.length ≤ maxT) (hcf : progCallFree t = true)
    (htoks : ∀ (i : Nat) (h : i < t.length), t.get ⟨i, h⟩ ∈ PRIMITIVES)
    (hpre : ∀ n : Nat, n < t.length → prefixOkPure (t.take (n + 1)) exs = true)
    (hcp : ∀ n : Nat, n < t.length → candOkPure (t.take n) exs = false)
    (hc : candOkPure t exs = true) :
    ∀ (fuel : Nat) (queue : List SNode) (sols : List Program),
      queueWeight PRIMITIVES.length maxT queue < fuel →
      ((∃ node ∈ queue, ∃ k, k ≤ t.length ∧ node.prog = t.take k) ∨ t ∈ sols) →
      t ∈ searchLoopF S exs maxT none false fuel queue sols := by
  have hTS : tokenSpace false = PRIMITIVES := rfl
  intro fuel
  induction fuel with
  | zero => intro queue sols hw _; omega
  | succ n ih =>
    intro queue sols hw hinv
    rw [searchLoopF_succ]
    rw [show trimQueue none queue = queue from rfl]
    cases queue with
    | nil =>
      rcases hinv with ⟨node, hnode, _⟩ | hs
      · simp at hnode
      · exact hs
    | cons node rest =>
      dsimp only
      rw [queueWeight_cons] at hw
      have htw := treeW_pos PRIMITIVES.length (maxT - node.prog.length)
      by_cases hok : (candidate_ok S node.prog exs node.rng).1 = true
      · rw [if_pos hok]
        apply ih
        · omega
        · rcases hinv with ⟨w, hwmem, k, hk, hkeq⟩ | hs
          · rcases List.mem_cons.mp hwmem with heqw | hwrest
            · subst heqw
              by_cases hkt : k = t.length
              · subst hkt
                rw [List.take_length] at hkeq
                right
                rw [hkeq]
                exact List.mem_append_right _ (List.mem_singleton.mpr rfl)
              · exfalso
                have hklt : k < t.length := by omega
                have hcfk : progCallFree (t.take k) = true := progCallFree_take hcf k
                rw [hkeq, candOkPure_eq S _ hcfk exs w.rng, hcp k hklt] at hok
                simp at hok
            · left
              exact ⟨w, hwrest, k, hk, hkeq⟩
          · right
            exact List.mem_append_left _ hs
      · rw [if_neg hok]
        by_cases hcut : maxT ≤ node.prog.length
        · rw [if_pos hcut]
          apply ih
          · omega
          · rcases hinv with ⟨w, hwmem, k, hk, hkeq⟩ | hs
            · rcases List.mem_cons.mp hwmem with heqw | hwrest
              · subst heqw
                exfalso
                have hlenk : w.prog.length = k := by
                  rw [hkeq, List.length_take]
                  omega
                have hkt : k = t.length := by omega
                subst hkt
                rw [List.take_length] at hkeq
                rw [hkeq, candOkPure_eq S _ hcf exs w.rng, hc] at hok
                exact hok rfl
              · left
                exact ⟨w, hwrest, k, hk, hkeq⟩
            · right
              exact hs
        · rw [if_neg hcut]
          have hexp := expandNode_weight S exs node.prog (tokenSpace false)
            (candidate_ok S node.prog exs node.rng).2 maxT (by omega)
          rw [hTS] at hexp
          apply ih
          · rw [queueWeight_append]
            rw [hTS]
            omega
          · rcases hinv with ⟨w, hwmem, k, hk, hkeq⟩ | hs
            · rcases List.mem_cons.mp hwmem with heqw | hwrest
              · -- the popped node is a proper prefix of the target
                subst heqw
                have hklt : k < t.length := by
                  rcases Nat.lt_or_ge k t.length with h | h
                  · exact h
                  · exfalso
                    have hkt : k = t.length := by omega
                    subst hkt
                    rw [List.take_length] at hkeq
                    rw [hkeq, candOkPure_eq S _ hcf exs w.rng, hc] at hok
                    exact hok rfl
                have htokmem : t.get ⟨k, hklt⟩ ∈ tokenSpace false := by
                  rw [hTS]
                  exact htoks k hklt
                have hchild : w.prog ++ [t.get ⟨k, hklt⟩] = t.take (k + 1) := by
                  rw [hkeq]
                  exact (take_succ_get t k hklt).symm
                have hcfc : progCallFree (w.prog ++ [t.get ⟨k, hklt⟩]) = true := by
                  rw [hchild]
                  exact progCallFree_take hcf (k + 1)
                have hokc : prefixOkPure (w.prog ++ [t.get ⟨k, hklt⟩]) exs = true := by
                  rw [hchild]
                  exact hpre k hklt
                obtain ⟨x, hx, hxeq⟩ := expandNode_mem S exs w.prog (tokenSpace false)
                  ([], (candidate_ok S w.prog exs w.rng).2)
                  (t.get ⟨k, hklt⟩) htokmem hcfc hokc
                left
                refine ⟨x, List.mem_append_left _ hx, k + 1, by omega, ?_⟩
                rw [hxeq, hchild]
              · left
                exact ⟨w, List.mem_append_right _ hwrest, k, hk, hkeq⟩
            · right
              exact hs

/-! Claim theorems: the search engine. -/

/-- C1 (amended): the prefix-consistency check accepts a candidate iff for
every example the VM run on the example's input (under the per-example
derived generator) succeeds and every position inside the zipped overlap of
output and expected output matches; because `zip` truncates, an output
LONGER than the expected sequence whose overlap matches is accepted, not
rejected.  Every node the expansion loop emits passed exactly this check
for some generator state (a rejected candidate is never pushed). -/
theorem prefix_check_spec :
    (∀ (S : RandomSource) (p : Program) (exs : List (List Int × List Int)) (r : Rng),
      (prefix_ok S p exs r).1 = true ↔
        ∀ (i : Nat) (h : i < exs.length), ∃ out,
          run_vm S p (exs.get ⟨i, h⟩).1 (mkRng (exSeed S r i)) = some out ∧
            prefixMismatch out (exs.get ⟨i, h⟩).2 = false) ∧
    ∀ (S : RandomSource) (exs : List (List Int × List Int)) (p : Program)
      (toks : List Instr) (r : Rng) (x : SNode),
      x ∈ (expandNode S exs p toks r).1 →
      ∃ tok ∈ toks, x.prog = p ++ [tok] ∧
        ∃ r1 r2 : Rng, prefix_ok S x.prog exs r1 = (true, r2) := by
  constructor
  · exact prefix_ok_iff
  · intro S exs p toks r x hx
    rcases expandNode_sound S exs p toks ([], r) x hx with h | h
    · simp at h
    · exact h

/-- C1 witness: expanding the empty program against the example `[] → [0]`
emits the node `[PUSH 5]`, which passed the prefix check. -/
theorem prefix_check_spec_witness :
    ∃ tok ∈ PRIMITIVES, (⟨[Instr.push 5], mkRng 0⟩ : SNode).prog = [] ++ [tok] ∧
      ∃ r1 r2 : Rng,
        prefix_ok S0 (⟨[Instr.push 5], mkRng 0⟩ : SNode).prog [([], [0])] r1 = (true, r2) :=
  prefix_check_spec.2 S0 [([], [0])] [] PRIMITIVES ⟨0, 0⟩ ⟨[Instr.push 5], mkRng 0⟩ (by decide)

/-- C1 counterexample: the candidate `[PUSH 0, PRINT, PRINT]` emits
`[0, 0]` — strictly longer than the expected output `[0]` of the example
`[] → [0]` — yet `prefix_ok` accepts it, because `zip` never inspects the
surplus emitted position; the claim demands rejection here. -/
theorem prefix_check_counterexample :
    run_vm S0 longOutProg [] (mkRng 0) = some [.intV 0, .intV 0] ∧
      (prefix_ok S0 longOutProg [([], [0])] ⟨0, 0⟩).1 = true := by
  constructor
  · decide
  · decide

/-- C2: every program the synthesis search returns passed the full
acceptance test with the generator state its search node carried: for
each example, the VM run on the example's input (under the per-example
derived generator) completes without error and its full output sequence
equals the expected output exactly — not merely a prefix. -/
theorem search_soundness :
    (∀ (S : RandomSource) (exs : List (List Int × List Int)) (maxT : Nat)
      (beam : Option Nat) (aw : Bool) (seed : Nat) (p : Program),
      p ∈ enumerate_programs S exs maxT beam aw seed →
      ∃ r r' : Rng, candidate_ok S p exs r = (true, r')) ∧
    ∀ (S : RandomSource) (p : Program) (exs : List (List Int × List Int)) (r : Rng),
      (candidate_ok S p exs r).1 = true ↔
        ∀ (i : Nat) (h : i < exs.length),
          run_vm S p (exs.get ⟨i, h⟩).1 (mkRng (exSeed S r i)) =
            some ((exs.get ⟨i, h⟩).2.map StackVal.intV) := by
  constructor
  · intro S exs maxT beam aw seed p hp
    simp only [enumerate_programs] at hp
    rcases searchLoopF_sound S exs maxT beam aw _ _ _ p hp with h | h
    · simp at h
    · exact h
  · exact candidate_ok_iff

/-- C2 witness: the empty program is returned for the single example
`[] → []` and indeed passed the full acceptance test. -/
theorem search_soundness_witness :
    ∃ r r' : Rng,
      candidate_ok S0 ([] : Program) [(([] : List Int), ([] : List Int))] r = (true, r') :=
  search_soundness.1 S0 [([], [])] 0 none false 0 [] (by decide)

/-- C9: the search and the machine are deterministic functions of the
seed and of the PRNG stream: two runs sharing the PRNG algorithm and all
arguments return identical solution lists, and identical final machine
states — library contents included — for every VM run. -/
theorem seeded_determinism :
    ∀ S1 S2 : RandomSource, S1.gen = S2.gen →
      (∀ (exs : List (List Int × List Int)) (maxT : Nat) (beam : Option Nat)
        (aw : Bool) (seed : Nat),
        enumerate_programs S1 exs maxT beam aw seed =
          enumerate_programs S2 exs maxT beam aw seed) ∧
      ∀ (lib : List (String × Program)) (r : Rng) (p : Program) (ins : List Int) (M : Nat),
        runVM S1 lib r p ins M = runVM S2 lib r p ins M := by
  intro S1 S2 hgen
  obtain ⟨g1⟩ := S1
  obtain ⟨g2⟩ := S2
  have h2 : g1 = g2 := hgen
  subst h2
  exact ⟨fun _ _ _ _ _ => rfl, fun _ _ _ _ _ => rfl⟩

/-- C9 witness: two identically seeded searches agree. -/
theorem seeded_determinism_witness :
    enumerate_programs S0 [(([] : List Int), ([] : List Int))] 0 none false 0 =
      enumerate_programs S0 [([], [])] 0 none false 0 :=
  (seeded_determinism S0 S0 rfl).1 [([], [])] 0 none false 0

/-- C8: for the examples `{[2] → [5], [3] → [10]}`, any token budget of at
least 6, an unbounded frontier (`beam = None`), wildcards disabled and any
seed and PRNG stream, the search's solution list contains
`[ARG0, DUP, MUL, PUSH 1, ADD, PRINT]`, and that program outputs `[5]` on
input `[2]` and `[10]` on input `[3]`. -/
theorem end_to_end_square_synthesis :
    ∀ (S : RandomSource) (seed maxT : Nat), 6 ≤ maxT →
      targetProg ∈ enumerate_programs S exsSquare maxT none false seed ∧
      ∀ r : Rng, run_vm S targetProg [2] r = some [.intV 5] ∧
        run_vm S targetProg [3] r = some [.intV 10] := by
  intro S seed maxT hmaxT
  constructor
  · simp only [enumerate_programs]
    apply searchLoopF_complete S exsSquare maxT targetProg
    · exact le_trans (by decide) hmaxT
    · decide
    · decide
    · decide
    · decide
    · decide
    · rw [show tokenSpace false = PRIMITIVES from rfl]
      omega
    · left
      refine ⟨⟨[], mkRng (randint S (mkRng seed) 0 (2 ^ 32 - 1)).1⟩, ?_, 0, by omega, rfl⟩
      exact List.mem_singleton.mpr rfl
  · intro r
    constructor
    · rw [run_vm_callFree S S0 targetProg [2] r (mkRng 0) (by decide)]
      decide
    · rw [run_vm_callFree S S0 targetProg [3] r (mkRng 0) (by decide)]
      decide

/-- C8 witness: at budget exactly 6 with seed 0 under the all-zero
source, the target program is among the solutions and reproduces `[5]`
on `[2]`. -/
theorem end_to_end_square_synthesis_witness :
    targetProg ∈ enumerate_programs S0 exsSquare 6 none false 0 ∧
      run_vm S0 targetProg [2] (mkRng 0) = some [.intV 5] :=
  ⟨(end_to_end_square_synthesis S0 0 6 (by decide)).1,
    ((end_to_end_square_synthesis S0 0 6 (by decide)).2 (mkRng 0)).1⟩

/-! Adequacy of the fuel supplied to the search loop: any two sufficient
fuels compute the same result, so `enumerate_programs` is independent of
the particular bound used. -/

theorem searchLoopF_congr (S : RandomSource) (exs : List (List Int × List Int))
    (maxT : Nat) (beam : Option Nat) (aw : Bool) :
    ∀ (f g : Nat) (queue : List SNode) (sols : List Program),
      queueWeight (tokenSpace aw).length maxT queue < f →
      queueWeight (tokenSpace aw).length maxT queue < g →
      searchLoopF S exs maxT beam aw f queue sols =
        searchLoopF S exs maxT beam aw g queue sols := by
  intro f
  induction f with
  | zero => intro g queue sols hf _; omega
  | succ n ih =>
    intro g queue sols hf hg
    cases g with
    | zero => omega
    | succ m =>
      rw [searchLoopF_succ, searchLoopF_succ]
      have htrim := trimQueue_weight (tokenSpace aw).length maxT beam queue
      cases htr : trimQueue beam queue with
      | nil => rfl
      | cons node rest =>
        rw [htr] at htrim
        rw [queueWeight_cons] at htrim
        have htw := treeW_pos (tokenSpace aw).length (maxT - node.prog.length)
        dsimp only
        by_cases hok : (candidate_ok S node.prog exs node.rng).1 = true
        · rw [if_pos hok, if_pos hok]
          exact ih m rest (sols ++ [node.prog]) (by omega) (by omega)
        · rw [if_neg hok, if_neg hok]
          by_cases hcut : maxT ≤ node.prog.length
          · rw [if_pos hcut, if_pos hcut]
            exact ih m rest sols (by omega) (by omega)
          · rw [if_neg hcut, if_neg hcut]
            have hexp := expandNode_weight S exs node.prog (tokenSpace aw)
              (candidate_ok S node.prog exs node.rng).2 maxT (by omega)
            apply ih <;> rw [queueWeight_append] <;> omega

/-! No program whose tokens (and whose library bodies) use only
nonnegative argument indices — in particular no program over `PRIMITIVES`
and no wildcard body — can raise the uncaught `IndexError`, so `run_vm`'s
catch-all is faithful to the source's `except VMError` on everything the
search executes. -/

theorem PRIMITIVES_argOk : ∀ i ∈ PRIMITIVES, instrArgOk i = true := by decide

theorem libLookup_mem {l : List (String × Program)} {f : String} {b : Program}
    (h : libLookup f l = some b) : (f, b) ∈ l := by
  induction l with
  | nil => simp [libLookup] at h
  | cons kv t ih =>
    obtain ⟨g, b'⟩ := kv
    simp only [libLookup] at h
    split at h
    · rename_i hfg
      cases h
      subst hfg
      exact List.mem_cons_self _ _
    · exact List.mem_cons_of_mem _ (ih h)

theorem sample_body_argOk (S : RandomSource) (r : Rng) :
    progArgOk (sample_body S r).1 = true := by
  simp only [progArgOk, List.all_eq_true]
  intro i hi
  exact PRIMITIVES_argOk i ((sample_body_spec S r).2.2 i hi)

theorem exec_no_indexError {S : RandomSource} {i : Instr} {c : Config}
    (hi : instrArgOk i = true) : execInstr S i c ≠ .error .indexError := by
  cases i with
  | push n => simp [execInstr]
  | dup =>
    simp only [execInstr]
    split <;> simp
  | add =>
    simp only [execInstr, execBinary]
    split <;> simp
  | sub =>
    simp only [execInstr, execBinary]
    split <;> simp
  | mul =>
    simp only [execInstr, execBinary]
    split <;> simp
  | print =>
    simp only [execInstr]
    split <;> simp
  | call f =>
    simp only [execInstr]
    split
    · simp
    · split <;> simp
  | select =>
    simp only [execInstr]
    split <;> simp
  | eq =>
    simp only [execInstr]
    split <;> simp
  | arg k =>
    have hk : (0 : Int) ≤ k := by simpa [instrArgOk] using hi
    simp only [execInstr]
    split
    · rename_i hlt
      have hnat : k.toNat < c.inputs.length := by omega
      rw [pyGet, if_pos hk, List.get?_eq_get hnat]
      simp
    · simp

theorem execInstr_library_noncall {S : RandomSource} {i : Instr} {c c' : Config}
    (hcf : isCall i = false) (h : execInstr S i c = .ok c') : c'.library = c.library := by
  cases i with
  | call f => simp [isCall] at hcf
  | push n =>
    simp only [execInstr, Except.ok.injEq] at h
    subst h
    rfl
  | dup =>
    simp only [execInstr] at h
    split at h
    · cases h
    · simp only [Except.ok.injEq] at h
      subst h
      rfl
  | add =>
    simp only [execInstr, execBinary] at h
    split at h
    · simp only [Except.ok.injEq] at h
      subst h
      rfl
    · cases h
  | sub =>
    simp only [execInstr, execBinary] at h
    split at h
    · simp only [Except.ok.injEq] at h
      subst h
      rfl
    · cases h
  | mul =>
    simp only [execInstr, execBinary] at h
    split at h
    · simp only [Except.ok.injEq] at h
      subst h
      rfl
    · cases h
  | print =>
    simp only [execInstr] at h
    split at h
    · cases h
    · simp only [Except.ok.injEq] at h
      subst h
      rfl
  | arg k =>
    simp only [execInstr] at h
    split at h
    · split at h
      · simp only [Except.ok.injEq] at h
        subst h
        rfl
      · cases h
    · simp only [Except.ok.injEq] at h
      subst h
      rfl
  | select =>
    simp only [execInstr] at h
    split at h
    · simp only [Except.ok.injEq] at h
      subst h
      rfl
    · cases h
  | eq =>
    simp only [execInstr] at h
    split at h
    · simp only [Except.ok.injEq] at h
      subst h
      rfl
    · cases h

theorem isCall_eq_true {i : Instr} (h : isCall i = true) : ∃ g, i = .call g := by
  cases i <;> simp [isCall] at h
  exact ⟨_, rfl⟩

theorem exec_call_inv {S : RandomSource} {f : String} {c c' : Config}
    (h : execInstr S (.call f) c = .ok c') :
    (∃ body, libLookup f c.library = some body ∧
      c'.frames = (body, 0) :: c.frames ∧ c'.library = c.library) ∨
    (libLookup f c.library = none ∧
      c'.frames = ((sample_body S c.rng).1, 0) :: c.frames ∧
      c'.library = c.library ++ [(f, (sample_body S c.rng).1)]) := by
  simp only [execInstr] at h
  split at h
  · cases h
  · cases hb : libLookup f c.library with
    | some body =>
      rw [hb] at h
      simp only [Except.ok.injEq] at h
      subst h
      exact Or.inl ⟨body, rfl, rfl, rfl⟩
    | none =>
      rw [hb] at h
      simp only [Except.ok.injEq] at h
      subst h
      exact Or.inr ⟨rfl, rfl, rfl⟩

theorem step_argOk {S : RandomSource} {M : Nat} {c d : Config}
    (hfr : c.frames.all (fun fr => progArgOk fr.1) = true)
    (hlib : c.library.all (fun kv => progArgOk kv.2) = true)
    (h : step S M c = .next d) :
    d.frames.all (fun fr => progArgOk fr.1) = true ∧
      d.library.all (fun kv => progArgOk kv.2) = true := by
  unfold step at h
  cases hf : c.frames with
  | nil => rw [hf] at h; cases h
  | cons fr rest =>
    rw [hf] at h
    obtain ⟨prog, ip⟩ := fr
    rw [hf] at hfr
    simp only [List.all_cons, Bool.and_eq_true] at hfr
    dsimp only at h
    split at h
    · cases h
    · split at h
      · cases h
        exact ⟨hfr.2, hlib⟩
      · rename_i hM hip
        split at h
        · cases h
        · rename_i c2 hexec
          cases h
          have hinstr : instrArgOk (prog.get ⟨ip, by omega⟩) = true := by
            have hmem := List.get_mem prog ip (by omega)
            exact (List.all_eq_true.mp hfr.1) _ hmem
          show c2.frames.all _ = true ∧ c2.library.all _ = true
          cases hcall : isCall (prog.get ⟨ip, by omega⟩) with
          | false =>
            have h1 := execInstr_frames_noncall hcall hexec
            have h2 := execInstr_library_noncall hcall hexec
            rw [h1, h2]
            refine ⟨?_, hlib⟩
            show ((prog, ip + 1) :: rest).all _ = true
            simp only [List.all_cons, Bool.and_eq_true]
            exact ⟨hfr.1, hfr.2⟩
          | true =>
            obtain ⟨g, hg⟩ := isCall_eq_true hcall
            rw [hg] at hexec
            rcases exec_call_inv hexec with ⟨body, hb, hfr2, hlib2⟩ |
              ⟨hb, hfr2, hlib2⟩
            · rw [hfr2, hlib2]
              have hbody : progArgOk body = true := by
                have hm := libLookup_mem hb
                exact (List.all_eq_true.mp hlib) _ hm
              refine ⟨?_, hlib⟩
              show (((body, 0) :: (prog, ip + 1) :: rest).all fun fr => progArgOk fr.1) = true
              simp only [List.all_cons, Bool.and_eq_true]
              exact ⟨hbody, hfr.1, hfr.2⟩
            · rw [hfr2, hlib2]
              constructor
              · show ((((sample_body S c.rng).1, 0) :: (prog, ip + 1) :: rest).all
                  fun fr => progArgOk fr.1) = true
                simp only [List.all_cons, Bool.and_eq_true]
                exact ⟨sample_body_argOk S _, hfr.1, hfr.2⟩
              · show ((c.library ++ [(g, (sample_body S c.rng).1)]).all
                  fun kv => progArgOk kv.2) = true
                rw [List.all_append]
                simp only [Bool.and_eq_true, List.all_cons, List.all_nil]
                exact ⟨hlib, sample_body_argOk S _, trivial⟩

theorem step_err_argOk {S : RandomSource} {M : Nat} {c : Config} {e : VMErr}
    (hfr : c.frames.all (fun fr => progArgOk fr.1) = true)
    (h : step S M c = .err e) : e ≠ .indexError := by
  unfold step at h
  cases hf : c.frames with
  | nil => rw [hf] at h; cases h
  | cons fr rest =>
    rw [hf] at h
    obtain ⟨prog, ip⟩ := fr
    rw [hf] at hfr
    simp only [List.all_cons, Bool.and_eq_true] at hfr
    dsimp only at h
    split at h
    · cases h
      simp
    · split at h
      · cases h
      · split at h
        · rename_i hM hip e2 hexec
          cases h
          have hinstr : instrArgOk (prog.get ⟨ip, by omega⟩) = true := by
            have hmem := List.get_mem prog ip (by omega)
            exact (List.all_eq_true.mp hfr.1) _ hmem
          intro hcon
          subst hcon
          exact exec_no_indexError hinstr hexec
        · cases h

theorem runLoopF_no_indexError {S : RandomSource} {M : Nat} :
    ∀ (fuel : Nat) (c : Config),
      c.frames.all (fun fr => progArgOk fr.1) = true →
      c.library.all (fun kv => progArgOk kv.2) = true →
      runLoopF S M fuel c ≠ .error .indexError := by
  intro fuel
  induction fuel with
  | zero => intro c _ _; simp [runLoopF]
  | succ n ih =>
    intro c hfr hlib
    unfold runLoopF
    cases hs : step S M c with
    | halt d => simp
    | err e =>
      have := step_err_argOk hfr hs
      simp [this]
    | next d =>
      obtain ⟨h1, h2⟩ := step_argOk hfr hlib hs
      exact ih d h1 h2

theorem runVM_no_indexError (S : RandomSource) (lib : List (String × Program)) (r : Rng)
    (p : Program) (ins : List Int) (M : Nat) (hp : progArgOk p = true)
    (hlib : lib.all (fun kv => progArgOk kv.2) = true) :
    runVM S lib r p ins M ≠ .error .indexError := by
  unfold runVM runLoop
  apply runLoopF_no_indexError
  · show ([(p, 0)].all fun fr => progArgOk fr.1) = true
    simp only [List.all_cons, List.all_nil, Bool.and_eq_true]
    exact ⟨hp, trivial⟩
  · exact hlib

end DbnSolom
